import Mathlib

/-!
# ImageChain — formal model of the payload codec and chain engine

A shallow embedding in Lean 4 of the core of the `imagechain` TypeScript
repository: the canonical JSON serialization used for signing
(`src/services/cryptoService.ts`), the LSB steganographic codec with its
triple-repetition error-correcting channel and byte framing
(`src/services/imageService.ts`), the commit / chain-append step and the
chain verification loop (the `ImageWorkflow` / `VersionHistory` components),
and the rotation-searching extraction pipeline
(`src/services/extractionService.ts`).

Conventions of the embedding:

* JavaScript `Uint8Array` / `Uint8ClampedArray` buffers are `List Nat`
  (each element a byte value `< 256` wherever the source guarantees it).
* JavaScript 32-bit operations are made explicit: `>>> 0` becomes `% 2^32`
  (`u32`), and the signed result of `(a << 24) | ...` becomes `toInt32`.
* External library calls with no source in the repository (pako's
  DEFLATE/INFLATE, `JSON.parse`, WebCrypto signing, the floating-point DCT
  layer) are parameters of the functions that invoke them; theorems either
  hold for every choice of parameter or take the library's documented
  round-trip behaviour as an explicit hypothesis.
* `JSON.stringify` and the recursive key-sorting `canonicalize` are modelled
  on a `Json` value type; serialized output is the list of code points,
  and real-number scalars are restricted to the integer scalars the claims
  exercise (scalar values are opaque to every function modelled here).
-/

namespace ImageChain

set_option maxRecDepth 4000

/-! ## JSON values -/

/-- A JSON value as produced by the TypeScript layer: object members keep
their JavaScript insertion order. -/
inductive Json where
  | null : Json
  | bool : Bool → Json
  | num : Int → Json
  | str : String → Json
  | arr : List Json → Json
  | obj : List (String × Json) → Json
deriving Inhabited

/-- Decimal digits (as code points) of a natural number, with explicit
fuel so the recursion is structural (`n + 1` fuel always suffices since
`n / 10 < n` for `n ≥ 10`). -/
def natCodesAux : Nat → Nat → List Nat
  | 0, _ => []
  | fuel + 1, n => if n < 10 then [48 + n] else natCodesAux fuel (n / 10) ++ [48 + n % 10]

/-- Decimal digits (as code points) of a natural number. -/
def natCodes (n : Nat) : List Nat := natCodesAux (n + 1) n

/-- Decimal code points of an integer (leading `-` for negatives). -/
def intCodes (n : Int) : List Nat :=
  if n < 0 then 45 :: natCodes n.natAbs else natCodes n.natAbs

/-- `JSON.stringify` escaping for one code point inside a string literal. -/
def escapeChar (c : Nat) : List Nat :=
  if c = 34 then [92, 34] else if c = 92 then [92, 92] else [c]

/-- Code points of a string scalar's content, escaped. -/
def strCodes (s : String) : List Nat :=
  (s.data.map (fun c => (escapeChar c.toNat))).flatten

/-- A JSON string literal: `"` content `"`. -/
def strLit (s : String) : List Nat := 34 :: (strCodes s ++ [34])

mutual
/-- `JSON.stringify` (no space argument): compact serialization, object
members in stored order. Output is the list of code points. -/
def stringifyJson : Json → List Nat
  | .null => [110, 117, 108, 108]
  | .bool true => [116, 114, 117, 101]
  | .bool false => [102, 97, 108, 115, 101]
  | .num n => intCodes n
  | .str s => strLit s
  | .arr l => 91 :: (stringifyArr l ++ [93])
  | .obj l => 123 :: (stringifyObj l ++ [125])

/-- Comma-separated serialization of array elements. -/
def stringifyArr : List Json → List Nat
  | [] => []
  | [x] => stringifyJson x
  | x :: y :: xs => stringifyJson x ++ 44 :: stringifyArr (y :: xs)

/-- Comma-separated serialization of `"key":value` members. -/
def stringifyObj : List (String × Json) → List Nat
  | [] => []
  | [(k, v)] => strLit k ++ 58 :: stringifyJson v
  | (k, v) :: m :: xs => strLit k ++ 58 :: stringifyJson v ++ 44 :: stringifyObj (m :: xs)
end

/-- Lexicographic comparison of code-point lists: JavaScript's default
string comparison, which `Object.keys(value).sort()` uses on keys. -/
def codesLe : List Nat → List Nat → Bool
  | [], _ => true
  | _ :: _, [] => false
  | a :: as, b :: bs =>
      if a < b then true else if b < a then false else codesLe as bs

/-- The code points of a string. -/
def strCodePoints (s : String) : List Nat := s.data.map Char.toNat

/-- Ascending string comparison on code points. -/
def strLeB (s t : String) : Bool := codesLe (strCodePoints s) (strCodePoints t)

theorem codesLe_total : ∀ a b, codesLe a b = true ∨ codesLe b a = true
  | [], _ => Or.inl rfl
  | _ :: _, [] => Or.inr rfl
  | a :: as, b :: bs => by
    simp only [codesLe]
    rcases Nat.lt_trichotomy a b with h | h | h
    · left; simp [h]
    · subst h
      simpa [lt_irrefl] using codesLe_total as bs
    · right; simp [h]

theorem codesLe_trans : ∀ {a b c : List Nat},
    codesLe a b = true → codesLe b c = true → codesLe a c = true
  | [], _, _, _, _ => rfl
  | _ :: _, [], _, h, _ => by cases h
  | _ :: _, _ :: _, [], _, h => by cases h
  | a :: as, b :: bs, c :: cs, h1, h2 => by
    simp only [codesLe] at h1 h2 ⊢
    by_cases hab : a < b
    · by_cases hbc : b < c
      · simp [show a < c by omega]
      · by_cases hcb : c < b
        · simp [hbc, hcb] at h2
        · have hbceq : b = c := by omega
          subst hbceq
          simp [hab]
    · by_cases hba : b < a
      · simp [hab, hba] at h1
      · have habeq : a = b := by omega
        subst habeq
        simp [lt_irrefl] at h1
        by_cases hac : a < c
        · simp [hac]
        · by_cases hca : c < a
          · simp [hac, hca] at h2
          · have haceq : a = c := by omega
            subst haceq
            simp [lt_irrefl] at h2 ⊢
            exact codesLe_trans h1 h2

theorem codesLe_antisymm : ∀ {a b : List Nat},
    codesLe a b = true → codesLe b a = true → a = b
  | [], [], _, _ => rfl
  | [], _ :: _, _, h => by cases h
  | _ :: _, [], h, _ => by cases h
  | a :: as, b :: bs, h1, h2 => by
    simp only [codesLe] at h1 h2
    by_cases hab : a < b
    · by_cases hba : b < a
      · omega
      · simp [hab, hba] at h2
    · by_cases hba : b < a
      · simp [hab, hba] at h1
      · have habeq : a = b := by omega
        subst habeq
        simp [lt_irrefl] at h1 h2
        rw [codesLe_antisymm h1 h2]

theorem strCodePoints_inj {s t : String} (h : strCodePoints s = strCodePoints t) :
    s = t := by
  have hinj : Function.Injective Char.toNat := by
    intro a b hab
    apply Char.ext
    apply UInt32.ext
    simpa [Char.toNat] using hab
  have hd : s.data = t.data := List.map_injective_iff.mpr hinj h
  cases s; cases t
  exact congrArg String.mk hd

theorem strLeB_total (s t : String) : strLeB s t = true ∨ strLeB t s = true :=
  codesLe_total _ _

theorem strLeB_trans {s t u : String} (h1 : strLeB s t = true)
    (h2 : strLeB t u = true) : strLeB s u = true :=
  codesLe_trans h1 h2

theorem strLeB_antisymm {s t : String} (h1 : strLeB s t = true)
    (h2 : strLeB t s = true) : s = t :=
  strCodePoints_inj (codesLe_antisymm h1 h2)

/-- Key comparison used when sorting object members. -/
def keyLe (p q : String × Json) : Prop := strLeB p.1 q.1 = true

instance : DecidableRel keyLe := fun p q =>
  inferInstanceAs (Decidable (strLeB p.1 q.1 = true))

instance : IsTotal (String × Json) keyLe := ⟨fun a b => strLeB_total a.1 b.1⟩

instance : IsTrans (String × Json) keyLe := ⟨fun _ _ _ h1 h2 => strLeB_trans h1 h2⟩

/-- Strict variant of `keyLe`, used to identify sorted member lists with
pairwise-distinct keys. -/
def keyLt (p q : String × Json) : Prop := keyLe p q ∧ p.1 ≠ q.1

instance : IsAntisymm (String × Json) keyLt :=
  ⟨fun _ _ h1 h2 => absurd (strLeB_antisymm h1.1 h2.1) h1.2⟩

mutual
/-- `canonicalize` from `src/services/cryptoService.ts` (lines 102–115):
arrays map recursively, objects are rebuilt with their keys sorted,
scalars pass through. -/
def canonicalize : Json → Json
  | .null => .null
  | .bool b => .bool b
  | .num n => .num n
  | .str s => .str s
  | .arr l => .arr (canonList l)
  | .obj l => .obj (List.insertionSort keyLe (canonObj l))

/-- `canonicalize` mapped over array elements. -/
def canonList : List Json → List Json
  | [] => []
  | x :: xs => canonicalize x :: canonList xs

/-- `canonicalize` mapped over object member values (keys unchanged). -/
def canonObj : List (String × Json) → List (String × Json)
  | [] => []
  | (k, v) :: xs => (k, canonicalize v) :: canonObj xs
end

/-- Two JSON values that are equal up to reordering of object keys
(recursively): the congruence closure of swapping adjacent object members.
Array order and scalar values are preserved by construction. -/
inductive KeyShuffle : Json → Json → Prop where
  | null : KeyShuffle .null .null
  | bool (b : Bool) : KeyShuffle (.bool b) (.bool b)
  | num (n : Int) : KeyShuffle (.num n) (.num n)
  | str (s : String) : KeyShuffle (.str s) (.str s)
  | arrNil : KeyShuffle (.arr []) (.arr [])
  | arrCons {x y : Json} {xs ys : List Json} :
      KeyShuffle x y → KeyShuffle (.arr xs) (.arr ys) →
      KeyShuffle (.arr (x :: xs)) (.arr (y :: ys))
  | objNil : KeyShuffle (.obj []) (.obj [])
  | objCons {k : String} {v w : Json} {xs ys : List (String × Json)} :
      KeyShuffle v w → KeyShuffle (.obj xs) (.obj ys) →
      KeyShuffle (.obj ((k, v) :: xs)) (.obj ((k, w) :: ys))
  | objSwap (p q : String × Json) (xs : List (String × Json)) :
      KeyShuffle (.obj (p :: q :: xs)) (.obj (q :: p :: xs))
  | trans {a b c : Json} : KeyShuffle a b → KeyShuffle b c → KeyShuffle a c

/-- Key list of an object member list. -/
def keysOf (l : List (String × Json)) : List String := l.map Prod.fst

/-- Boolean check that a key list has no duplicates (JavaScript objects
cannot carry duplicate keys). -/
def keysNodupB : List String → Bool
  | [] => true
  | k :: ks => (!ks.contains k) && keysNodupB ks

mutual
/-- Every object inside the value has pairwise-distinct keys. -/
def nodupKeysB : Json → Bool
  | .null => true
  | .bool _ => true
  | .num _ => true
  | .str _ => true
  | .arr l => nodupKeysArr l
  | .obj l => keysNodupB (keysOf l) && nodupKeysObj l

/-- `nodupKeysB` over array elements. -/
def nodupKeysArr : List Json → Bool
  | [] => true
  | x :: xs => nodupKeysB x && nodupKeysArr xs

/-- `nodupKeysB` over object member values. -/
def nodupKeysObj : List (String × Json) → Bool
  | [] => true
  | (_, v) :: xs => nodupKeysB v && nodupKeysObj xs
end

/-- Boolean check that consecutive keys are ascending. -/
def keysSortedB : List String → Bool
  | [] => true
  | [_] => true
  | a :: b :: rest => strLeB a b && keysSortedB (b :: rest)

mutual
/-- Every object inside the value stores its members with ascending keys. -/
def objSortedB : Json → Bool
  | .null => true
  | .bool _ => true
  | .num _ => true
  | .str _ => true
  | .arr l => objSortedArr l
  | .obj l => keysSortedB (keysOf l) && objSortedObj l

/-- `objSortedB` over array elements. -/
def objSortedArr : List Json → Bool
  | [] => true
  | x :: xs => objSortedB x && objSortedArr xs

/-- `objSortedB` over object member values. -/
def objSortedObj : List (String × Json) → Bool
  | [] => true
  | (_, v) :: xs => objSortedB v && objSortedObj xs
end

/-- A whitespace code point (space, tab, LF, CR). -/
def wsCode (c : Nat) : Bool := c = 9 || c = 10 || c = 13 || c = 32

/-- The string's code points contain no whitespace. -/
def strWsFree (s : String) : Bool := s.data.all (fun c => !wsCode c.toNat)

mutual
/-- No string scalar and no object key inside the value contains
whitespace characters. -/
def wsFreeB : Json → Bool
  | .null => true
  | .bool _ => true
  | .num _ => true
  | .str s => strWsFree s
  | .arr l => wsFreeArr l
  | .obj l => wsFreeObj l

/-- `wsFreeB` over array elements. -/
def wsFreeArr : List Json → Bool
  | [] => true
  | x :: xs => wsFreeB x && wsFreeArr xs

/-- `wsFreeB` over object members (key and value). -/
def wsFreeObj : List (String × Json) → Bool
  | [] => true
  | (k, v) :: xs => strWsFree k && wsFreeB v && wsFreeObj xs
end

/-- Removal of the top-level `signature` member: `getPayloadHeader` copies
the record and `delete`s `signature` before canonicalizing
(`src/services/cryptoService.ts`, lines 202–207). -/
def removeSignature : Json → Json
  | .obj l => .obj (l.filter (fun p => p.1 ≠ "signature"))
  | v => v

/-- `getPayloadHeader` from `src/services/cryptoService.ts`: drop the
`signature` field, canonicalize, `JSON.stringify`. -/
def getPayloadHeader (v : Json) : List Nat :=
  stringifyJson (canonicalize (removeSignature v))

/-! ### Structural lemmas about `canonicalize` -/

theorem canonList_eq (l : List Json) : canonList l = l.map canonicalize := by
  induction l with
  | nil => rfl
  | cons x xs ih => simp [canonList, ih]

theorem canonObj_eq (l : List (String × Json)) :
    canonObj l = l.map (fun p => (p.1, canonicalize p.2)) := by
  induction l with
  | nil => rfl
  | cons p xs ih => cases p; simp [canonObj, ih]

theorem keysOf_canonObj (l : List (String × Json)) :
    keysOf (canonObj l) = keysOf l := by
  induction l with
  | nil => rfl
  | cons p xs ih => cases p; simp [canonObj, keysOf] at ih ⊢; exact ih

theorem keysNodupB_iff (ks : List String) : keysNodupB ks = true ↔ ks.Nodup := by
  induction ks with
  | nil => simp [keysNodupB]
  | cons k rest ih =>
    simp only [keysNodupB, Bool.and_eq_true, Bool.not_eq_true', List.nodup_cons, ih]
    constructor
    · rintro ⟨h1, h2⟩
      refine ⟨fun hmem => ?_, h2⟩
      rw [← List.elem_iff] at hmem
      simp [List.contains] at h1
      simp [h1] at hmem
    · rintro ⟨h1, h2⟩
      refine ⟨?_, h2⟩
      rw [← Bool.not_eq_true, List.contains, List.elem_iff]
      exact h1

/-- Pairwise conjunction from two pairwise facts. -/
theorem pairwise_and {α : Type} {R S : α → α → Prop} :
    ∀ {l : List α}, l.Pairwise R → l.Pairwise S →
      l.Pairwise (fun a b => R a b ∧ S a b)
  | [], _, _ => List.Pairwise.nil
  | _ :: _, List.Pairwise.cons hR hRs, List.Pairwise.cons hS hSs =>
      List.Pairwise.cons (fun y hy => ⟨hR y hy, hS y hy⟩) (pairwise_and hRs hSs)

/-- A `keyLe`-sorted member list with pairwise-distinct keys is strictly
sorted by key. -/
theorem sorted_lt_of_sorted_le_nodup {s : List (String × Json)}
    (hs : s.Sorted keyLe) (hn : (keysOf s).Nodup) : s.Sorted keyLt := by
  have hne : s.Pairwise (fun p q : String × Json => p.1 ≠ q.1) := by
    have hn' : (s.map Prod.fst).Nodup := hn
    exact List.pairwise_map.mp hn'
  exact (pairwise_and hs hne).imp (fun h => ⟨h.1, h.2⟩)

/-- Sorting two permuted member lists with duplicate-free keys gives the
same list: the canonical order is unique. -/
theorem insertionSort_eq_of_perm {l₁ l₂ : List (String × Json)}
    (hp : l₁.Perm l₂) (hn : (keysOf l₁).Nodup) :
    List.insertionSort keyLe l₁ = List.insertionSort keyLe l₂ := by
  have p1 := List.perm_insertionSort keyLe l₁
  have p2 := List.perm_insertionSort keyLe l₂
  have hps : (List.insertionSort keyLe l₁).Perm (List.insertionSort keyLe l₂) :=
    (p1.trans hp).trans p2.symm
  have hn1 : (keysOf (List.insertionSort keyLe l₁)).Nodup :=
    ((p1.map Prod.fst).nodup_iff).mpr hn
  have hn2 : (keysOf (List.insertionSort keyLe l₂)).Nodup :=
    ((hps.map Prod.fst).nodup_iff).mp hn1
  exact List.eq_of_perm_of_sorted hps
    (sorted_lt_of_sorted_le_nodup (List.sorted_insertionSort keyLe l₁) hn1)
    (sorted_lt_of_sorted_le_nodup (List.sorted_insertionSort keyLe l₂) hn2)

/-! ### `KeyShuffle` basics -/

mutual
theorem ksRefl : (v : Json) → KeyShuffle v v
  | .null => .null
  | .bool b => .bool b
  | .num n => .num n
  | .str s => .str s
  | .arr l => ksReflArr l
  | .obj l => ksReflObj l

theorem ksReflArr : (l : List Json) → KeyShuffle (.arr l) (.arr l)
  | [] => .arrNil
  | x :: xs => .arrCons (ksRefl x) (ksReflArr xs)

theorem ksReflObj : (l : List (String × Json)) → KeyShuffle (.obj l) (.obj l)
  | [] => .objNil
  | (_, v) :: xs => .objCons (ksRefl v) (ksReflObj xs)
end

theorem ksPermObj {l l' : List (String × Json)} (h : l.Perm l') :
    KeyShuffle (.obj l) (.obj l') := by
  induction h with
  | nil => exact .objNil
  | cons x _ ih => cases x; exact .objCons (ksRefl _) ih
  | swap x y l => exact .objSwap y x l
  | trans _ _ ih1 ih2 => exact .trans ih1 ih2

/-- A key shuffle between two objects permutes their key lists (and key
shuffles preserve being an object). -/
theorem ksObjShape {a b : Json} (h : KeyShuffle a b) :
    ∀ xs, a = .obj xs → ∃ ys, b = .obj ys ∧ (keysOf xs).Perm (keysOf ys) := by
  induction h with
  | null => intro xs hxs; cases hxs
  | bool b => intro xs hxs; cases hxs
  | num n => intro xs hxs; cases hxs
  | str s => intro xs hxs; cases hxs
  | arrNil => intro xs hxs; cases hxs
  | arrCons _ _ _ _ => intro xs hxs; cases hxs
  | objNil => intro xs hxs; cases hxs; exact ⟨[], rfl, List.Perm.refl _⟩
  | @objCons k v w txs tys _ _ _ ih2 =>
    intro xs hxs
    cases hxs
    obtain ⟨ys, hys, hperm⟩ := ih2 txs rfl
    cases hys
    exact ⟨(k, w) :: tys, rfl, List.Perm.cons _ hperm⟩
  | objSwap p q xs =>
    intro zs hzs
    cases hzs
    exact ⟨q :: p :: xs, rfl, List.Perm.swap _ _ _⟩
  | trans _ _ ih1 ih2 =>
    intro xs hxs
    obtain ⟨ys, hys, hp1⟩ := ih1 xs hxs
    obtain ⟨zs, hzs, hp2⟩ := ih2 ys hys
    exact ⟨zs, hzs, hp1.trans hp2⟩

theorem nodupKeysObj_iff (l : List (String × Json)) :
    nodupKeysObj l = true ↔ ∀ p ∈ l, nodupKeysB p.2 = true := by
  induction l with
  | nil => simp [nodupKeysObj]
  | cons p xs ih => cases p; simp [nodupKeysObj, ih]

/-- Key shuffles preserve the no-duplicate-keys property. -/
theorem ksNodup {a b : Json} (h : KeyShuffle a b) :
    nodupKeysB a = true → nodupKeysB b = true := by
  induction h with
  | null => exact id
  | bool b => exact id
  | num n => exact id
  | str s => exact id
  | arrNil => exact id
  | arrCons _ _ ih1 ih2 =>
    intro hh
    simp only [nodupKeysB, nodupKeysArr, Bool.and_eq_true] at hh ⊢
    have h2 := ih2 (by simp [nodupKeysB, hh.2])
    simp only [nodupKeysB] at h2
    exact ⟨ih1 hh.1, h2⟩
  | objNil => exact id
  | @objCons k v w xs ys hvw hxy ih1 ih2 =>
    intro hh
    simp only [nodupKeysB, nodupKeysObj, keysOf, List.map_cons, keysNodupB_iff,
      List.nodup_cons, Bool.and_eq_true] at hh ⊢
    obtain ⟨⟨hk, hnd⟩, hv, hobj⟩ := hh
    have h2 := ih2 (by
      simp only [nodupKeysB, Bool.and_eq_true, keysNodupB_iff]
      exact ⟨hnd, hobj⟩)
    simp only [nodupKeysB, Bool.and_eq_true, keysNodupB_iff] at h2
    obtain ⟨ys', hys', hperm⟩ := ksObjShape hxy xs rfl
    cases hys'
    refine ⟨⟨fun hmem => hk ?_, h2.1⟩, ih1 hv, h2.2⟩
    · exact (hperm.mem_iff).mpr hmem
  | objSwap p q xs =>
    intro hh
    simp only [nodupKeysB, nodupKeysObj, keysOf, List.map_cons, keysNodupB_iff,
      Bool.and_eq_true] at hh ⊢
    refine ⟨((List.Perm.swap _ _ _).nodup_iff).mpr hh.1, ?_⟩
    obtain ⟨_, h1, h2, h3⟩ := hh
    exact ⟨h2, h1, h3⟩
  | trans _ _ ih1 ih2 => exact fun hh => ih2 (ih1 hh)

/-- The central canonicalization lemma: two values equal up to reordering
of object keys (with duplicate-free keys) canonicalize identically. -/
theorem canonicalize_eq_of_ks {a b : Json} (h : KeyShuffle a b)
    (hn : nodupKeysB a = true) : canonicalize a = canonicalize b := by
  induction h with
  | null => rfl
  | bool b => rfl
  | num n => rfl
  | str s => rfl
  | arrNil => rfl
  | objNil => rfl
  | arrCons _ _ ih1 ih2 =>
    rename_i x y xs ys _ _
    simp only [nodupKeysB, nodupKeysArr, Bool.and_eq_true] at hn
    have e1 := ih1 hn.1
    have e2 := ih2 (by simp [nodupKeysB, hn.2])
    simp only [canonicalize, canonList, Json.arr.injEq] at e2 ⊢
    rw [e1, e2]
  | @objCons k v w xs ys hvw hxy ih1 ih2 =>
    simp only [nodupKeysB, nodupKeysObj, keysOf, List.map_cons, keysNodupB_iff,
      List.nodup_cons, Bool.and_eq_true] at hn
    obtain ⟨⟨_, hnd⟩, hv, hobj⟩ := hn
    have e1 := ih1 hv
    have e2 := ih2 (by
      simp only [nodupKeysB, Bool.and_eq_true, keysNodupB_iff]
      exact ⟨hnd, hobj⟩)
    simp only [canonicalize, canonObj, Json.obj.injEq] at e2 ⊢
    rw [List.insertionSort, List.insertionSort, e1, e2]
  | objSwap p q xs =>
    cases p with
    | mk pk pv =>
      cases q with
      | mk qk qv =>
        simp only [nodupKeysB, keysOf, List.map_cons, keysNodupB_iff,
          Bool.and_eq_true] at hn
        simp only [canonicalize, canonObj, Json.obj.injEq]
        apply insertionSort_eq_of_perm (List.Perm.swap _ _ _)
        simp only [keysOf, List.map_cons]
        have : keysOf (canonObj xs) = keysOf xs := keysOf_canonObj xs
        simp only [keysOf] at this
        rw [this]
        exact hn.1
  | trans h1 _ ih1 ih2 => exact (ih1 hn).trans (ih2 (ksNodup h1 hn))

/-! ### Canonical output is key-sorted -/

theorem keysSortedB_of_sorted {s : List (String × Json)} (h : s.Sorted keyLe) :
    keysSortedB (keysOf s) = true := by
  induction s with
  | nil => rfl
  | cons p rest ih =>
    cases rest with
    | nil => rfl
    | cons q rest' =>
      rw [List.sorted_cons] at h
      simp only [keysOf, List.map_cons, keysSortedB, Bool.and_eq_true,
        decide_eq_true_eq]
      have hle : keyLe p q := h.1 q (by simp)
      have := ih h.2
      simp only [keysOf, List.map_cons] at this
      exact ⟨hle, this⟩

theorem objSortedObj_iff (l : List (String × Json)) :
    objSortedObj l = true ↔ ∀ p ∈ l, objSortedB p.2 = true := by
  induction l with
  | nil => simp [objSortedObj]
  | cons p xs ih => cases p; simp [objSortedObj, ih]

theorem mem_canonObj {p : String × Json} {l : List (String × Json)}
    (h : p ∈ canonObj l) : ∃ q ∈ l, p = (q.1, canonicalize q.2) := by
  rw [canonObj_eq] at h
  obtain ⟨q, hq, rfl⟩ := List.mem_map.mp h
  exact ⟨q, hq, rfl⟩

mutual
theorem canonSorted : (v : Json) → objSortedB (canonicalize v) = true
  | .null => rfl
  | .bool _ => rfl
  | .num _ => rfl
  | .str _ => rfl
  | .arr l => by
    simp only [canonicalize, objSortedB]
    exact canonSortedArr l
  | .obj l => by
    simp only [canonicalize, objSortedB, Bool.and_eq_true]
    refine ⟨keysSortedB_of_sorted (List.sorted_insertionSort keyLe _), ?_⟩
    rw [objSortedObj_iff]
    intro p hp
    exact canonSortedObj l p
      (((List.perm_insertionSort keyLe (canonObj l)).mem_iff).mp hp)

theorem canonSortedArr : (l : List Json) → objSortedArr (canonList l) = true
  | [] => rfl
  | x :: xs => by
    simp only [canonList, objSortedArr, Bool.and_eq_true]
    exact ⟨canonSorted x, canonSortedArr xs⟩

theorem canonSortedObj : (l : List (String × Json)) →
    ∀ p ∈ canonObj l, objSortedB p.2 = true
  | [] => by intro p hp; simp [canonObj] at hp
  | (k, v) :: xs => by
    intro p hp
    simp only [canonObj, List.mem_cons] at hp
    rcases hp with rfl | hp
    · exact canonSorted v
    · exact canonSortedObj xs p hp
end

/-! ### Serialization emits no whitespace -/

theorem wsCode_false_of_ge {c : Nat} (h : 33 ≤ c) : wsCode c = false := by
  simp only [wsCode, Bool.or_eq_false_iff, decide_eq_false_iff_not]
  omega

theorem natCodesAux_ws (fuel n : Nat) : ∀ c ∈ natCodesAux fuel n, wsCode c = false := by
  induction fuel generalizing n with
  | zero => intro c hc; cases hc
  | succ fuel ih =>
    intro c hc
    rw [natCodesAux] at hc
    split at hc
    · simp only [List.mem_singleton] at hc
      exact hc ▸ wsCode_false_of_ge (by omega)
    · rcases List.mem_append.mp hc with h | h
      · exact ih (n / 10) c h
      · simp only [List.mem_singleton] at h
        have : n % 10 < 10 := Nat.mod_lt _ (by norm_num)
        exact h ▸ wsCode_false_of_ge (by omega)

theorem natCodes_ws (n : Nat) : ∀ c ∈ natCodes n, wsCode c = false :=
  natCodesAux_ws (n + 1) n

theorem intCodes_ws (n : Int) : ∀ c ∈ intCodes n, wsCode c = false := by
  intro c hc
  rw [intCodes] at hc
  split at hc
  · rcases List.mem_cons.mp hc with h | h
    · exact h ▸ wsCode_false_of_ge (by omega)
    · exact natCodes_ws _ c h
  · exact natCodes_ws _ c hc

theorem strLit_ws {s : String} (hs : strWsFree s = true) :
    ∀ c ∈ strLit s, wsCode c = false := by
  intro c hc
  rcases List.mem_cons.mp hc with h | h
  · exact h ▸ wsCode_false_of_ge (by omega)
  · rcases List.mem_append.mp h with h' | h'
    · rw [strCodes] at h'
      obtain ⟨cs, hcs, hcmem⟩ := List.mem_flatten.mp h'
      obtain ⟨ch, hch, rfl⟩ := List.mem_map.mp hcs
      have hch' : wsCode ch.toNat = false := by
        rw [strWsFree, List.all_eq_true] at hs
        simpa using hs ch hch
      rw [escapeChar] at hcmem
      split at hcmem
      · rcases List.mem_cons.mp hcmem with h2 | h2
        · exact h2 ▸ wsCode_false_of_ge (by omega)
        · simp only [List.mem_singleton] at h2
          exact h2 ▸ wsCode_false_of_ge (by omega)
      · split at hcmem
        · rcases List.mem_cons.mp hcmem with h2 | h2
          · exact h2 ▸ wsCode_false_of_ge (by omega)
          · simp only [List.mem_singleton] at h2
            exact h2 ▸ wsCode_false_of_ge (by omega)
        · simp only [List.mem_singleton] at hcmem
          exact hcmem ▸ hch'
    · simp only [List.mem_singleton] at h'
      exact h' ▸ wsCode_false_of_ge (by omega)

mutual
theorem stringify_ws : (v : Json) → wsFreeB v = true →
    ∀ c ∈ stringifyJson v, wsCode c = false
  | .null => by intro _ c hc; fin_cases hc <;> rfl
  | .bool true => by intro _ c hc; fin_cases hc <;> rfl
  | .bool false => by intro _ c hc; fin_cases hc <;> rfl
  | .num n => by intro _ c hc; exact intCodes_ws n c hc
  | .str s => by intro hs c hc; exact strLit_ws hs c hc
  | .arr l => by
    intro hl c hc
    simp only [stringifyJson] at hc
    rcases List.mem_cons.mp hc with h | h
    · exact h ▸ wsCode_false_of_ge (by omega)
    · rcases List.mem_append.mp h with h' | h'
      · exact stringifyArr_ws l hl c h'
      · simp only [List.mem_singleton] at h'
        exact h' ▸ wsCode_false_of_ge (by omega)
  | .obj l => by
    intro hl c hc
    simp only [stringifyJson] at hc
    rcases List.mem_cons.mp hc with h | h
    · exact h ▸ wsCode_false_of_ge (by omega)
    · rcases List.mem_append.mp h with h' | h'
      · exact stringifyObj_ws l hl c h'
      · simp only [List.mem_singleton] at h'
        exact h' ▸ wsCode_false_of_ge (by omega)

theorem stringifyArr_ws : (l : List Json) → wsFreeB (.arr l) = true →
    ∀ c ∈ stringifyArr l, wsCode c = false
  | [] => by intro _ c hc; cases hc
  | [x] => by
    intro hl c hc
    simp only [wsFreeB, wsFreeArr, Bool.and_eq_true] at hl
    exact stringify_ws x hl.1 c hc
  | x :: y :: xs => by
    intro hl c hc
    simp only [wsFreeB, wsFreeArr, Bool.and_eq_true] at hl
    simp only [stringifyArr] at hc
    rcases List.mem_append.mp hc with h | h
    · exact stringify_ws x hl.1 c h
    · rcases List.mem_cons.mp h with h' | h'
      · exact h' ▸ wsCode_false_of_ge (by omega)
      · exact stringifyArr_ws (y :: xs) (by simp [wsFreeB, wsFreeArr, hl.2]) c h'

theorem stringifyObj_ws : (l : List (String × Json)) → wsFreeB (.obj l) = true →
    ∀ c ∈ stringifyObj l, wsCode c = false
  | [] => by intro _ c hc; cases hc
  | [(k, v)] => by
    intro hl c hc
    simp only [wsFreeB, wsFreeObj, Bool.and_eq_true] at hl
    simp only [stringifyObj] at hc
    rcases List.mem_append.mp hc with h | h
    · exact strLit_ws hl.1.1 c h
    · rcases List.mem_cons.mp h with h' | h'
      · exact h' ▸ wsCode_false_of_ge (by omega)
      · exact stringify_ws v hl.1.2 c h'
  | (k, v) :: m :: xs => by
    intro hl c hc
    simp only [wsFreeB, wsFreeObj, Bool.and_eq_true] at hl
    simp only [stringifyObj] at hc
    rcases List.mem_append.mp hc with h | h
    · rcases List.mem_append.mp h with h' | h'
      · exact strLit_ws hl.1.1 c h'
      · rcases List.mem_cons.mp h' with h2 | h2
        · exact h2 ▸ wsCode_false_of_ge (by omega)
        · exact stringify_ws v hl.1.2 c h2
    · rcases List.mem_cons.mp h with h2 | h2
      · exact h2 ▸ wsCode_false_of_ge (by omega)
      · exact stringifyObj_ws (m :: xs) (by simp [wsFreeB, wsFreeObj, hl.2]) c h2
end

/-! ### Preservation lemmas and the C3 claim -/

theorem wsFreeObj_iff (l : List (String × Json)) :
    wsFreeObj l = true ↔ ∀ p ∈ l, strWsFree p.1 = true ∧ wsFreeB p.2 = true := by
  induction l with
  | nil => simp [wsFreeObj]
  | cons p xs ih => cases p; simp [wsFreeObj, ih, and_assoc]

mutual
theorem canonWsFree : (v : Json) → wsFreeB v = true → wsFreeB (canonicalize v) = true
  | .null => id
  | .bool _ => id
  | .num _ => id
  | .str _ => id
  | .arr l => by
    intro h
    simp only [canonicalize, wsFreeB] at h ⊢
    exact canonWsFreeArr l h
  | .obj l => by
    intro h
    simp only [canonicalize, wsFreeB] at h ⊢
    rw [wsFreeObj_iff]
    intro p hp
    exact canonWsFreeObj l h p
      (((List.perm_insertionSort keyLe (canonObj l)).mem_iff).mp hp)

theorem canonWsFreeArr : (l : List Json) → wsFreeArr l = true →
    wsFreeArr (canonList l) = true
  | [] => id
  | x :: xs => by
    intro h
    simp only [wsFreeArr, Bool.and_eq_true] at h ⊢
    exact ⟨canonWsFree x h.1, canonWsFreeArr xs h.2⟩

theorem canonWsFreeObj : (l : List (String × Json)) → wsFreeObj l = true →
    ∀ p ∈ canonObj l, strWsFree p.1 = true ∧ wsFreeB p.2 = true
  | [] => by intro _ p hp; simp [canonObj] at hp
  | (k, v) :: xs => by
    intro h p hp
    simp only [wsFreeObj, Bool.and_eq_true] at h
    simp only [canonObj, List.mem_cons] at hp
    rcases hp with rfl | hp
    · exact ⟨h.1.1, canonWsFree v h.1.2⟩
    · exact canonWsFreeObj xs h.2 p hp
end

mutual
theorem ksCanon : (v : Json) → KeyShuffle v (canonicalize v)
  | .null => .null
  | .bool b => .bool b
  | .num n => .num n
  | .str s => .str s
  | .arr l => ksCanonArr l
  | .obj l =>
    KeyShuffle.trans (ksCanonObj l)
      (ksPermObj (List.perm_insertionSort keyLe (canonObj l)).symm)

theorem ksCanonArr : (l : List Json) → KeyShuffle (.arr l) (.arr (canonList l))
  | [] => .arrNil
  | x :: xs => .arrCons (ksCanon x) (ksCanonArr xs)

theorem ksCanonObj : (l : List (String × Json)) →
    KeyShuffle (.obj l) (.obj (canonObj l))
  | [] => .objNil
  | (_, v) :: xs => .objCons (ksCanon v) (ksCanonObj xs)
end

/-- Key shuffles commute with dropping the top-level `signature` member. -/
theorem ksRemoveSignature {a b : Json} (h : KeyShuffle a b) :
    KeyShuffle (removeSignature a) (removeSignature b) := by
  induction h with
  | null => exact .null
  | bool b => exact .bool b
  | num n => exact .num n
  | str s => exact .str s
  | arrNil => exact .arrNil
  | arrCons h1 h2 _ _ => exact .arrCons h1 h2
  | objNil => exact .objNil
  | @objCons k v w xs ys hvw _ _ ih2 =>
    simp only [removeSignature] at ih2 ⊢
    by_cases hk : k = "signature"
    · simpa [List.filter_cons, hk] using ih2
    · simpa [List.filter_cons, hk] using KeyShuffle.objCons hvw ih2
  | objSwap p q xs =>
    simp only [removeSignature]
    by_cases hp : p.1 = "signature" <;> by_cases hq : q.1 = "signature" <;>
      simp [List.filter_cons, hp, hq] <;>
      first
        | exact ksRefl _
        | exact .objSwap _ _ _
  | trans _ _ ih1 ih2 => exact .trans ih1 ih2

/-- Dropping the `signature` member preserves duplicate-free keys. -/
theorem nodupRemoveSignature {v : Json} (h : nodupKeysB v = true) :
    nodupKeysB (removeSignature v) = true := by
  cases v with
  | obj l =>
    simp only [removeSignature, nodupKeysB, Bool.and_eq_true, keysNodupB_iff,
      nodupKeysObj_iff] at h ⊢
    refine ⟨?_, fun p hp => h.2 p (List.mem_of_mem_filter hp)⟩
    have hsub : (keysOf (l.filter (fun p => p.1 ≠ "signature"))).Sublist (keysOf l) :=
      (List.filter_sublist l).map Prod.fst
    exact h.1.sublist hsub
  | null => exact h
  | bool b => exact h
  | num n => exact h
  | str s => exact h
  | arr l => exact h

/-- Dropping the `signature` member preserves whitespace-freeness. -/
theorem wsFreeRemoveSignature {v : Json} (h : wsFreeB v = true) :
    wsFreeB (removeSignature v) = true := by
  cases v with
  | obj l =>
    simp only [removeSignature, wsFreeB, wsFreeObj_iff] at h ⊢
    exact fun p hp => h p (List.mem_of_mem_filter hp)
  | null => exact h
  | bool b => exact h
  | num n => exact h
  | str s => exact h
  | arr l => exact h

/-- `signature` is never a key of the canonicalized header object. -/
theorem signature_not_mem_header (l : List (String × Json)) :
    ∀ m, canonicalize (removeSignature (.obj l)) = .obj m →
      "signature" ∉ keysOf m := by
  intro m hm hmem
  simp only [removeSignature, canonicalize, Json.obj.injEq] at hm
  subst hm
  simp only [keysOf, List.mem_map] at hmem
  obtain ⟨p, hp, hp1⟩ := hmem
  have hp' : p ∈ canonObj (l.filter (fun p => p.1 ≠ "signature")) :=
    ((List.perm_insertionSort keyLe _).mem_iff).mp hp
  obtain ⟨q, hq, rfl⟩ := mem_canonObj hp'
  have := List.of_mem_filter hq
  simp only [decide_eq_true_eq] at this
  exact this hp1

/-- C3: `canonicalize` recursively sorts object keys ascending, preserves
array order and scalar values (its output is a key reordering of its
input), `getPayloadHeader` removes the `signature` field before encoding
and emits no whitespace beyond the strings' own content, and two records
equal up to reordering of (duplicate-free) object keys produce identical
canonical output. -/
theorem canonicalization_spec (v w : Json) :
    objSortedB (canonicalize v) = true
    ∧ KeyShuffle v (canonicalize v)
    ∧ (wsFreeB v = true → ∀ c ∈ getPayloadHeader v, wsCode c = false)
    ∧ (∀ m, canonicalize (removeSignature v) = .obj m → "signature" ∉ keysOf m)
    ∧ (KeyShuffle v w → nodupKeysB v = true →
        getPayloadHeader v = getPayloadHeader w) := by
  refine ⟨canonSorted v, ksCanon v, ?_, ?_, ?_⟩
  · intro hws c hc
    exact stringify_ws _ (canonWsFree _ (wsFreeRemoveSignature hws)) c hc
  · intro m hm
    cases v with
    | obj l => exact signature_not_mem_header l m hm
    | null => intro hmem; simp [removeSignature, canonicalize] at hm
    | bool b => intro hmem; simp [removeSignature, canonicalize] at hm
    | num n => intro hmem; simp [removeSignature, canonicalize] at hm
    | str s => intro hmem; simp [removeSignature, canonicalize] at hm
    | arr l => intro hmem; simp [removeSignature, canonicalize] at hm
  · intro hks hnd
    unfold getPayloadHeader
    rw [canonicalize_eq_of_ks (ksRemoveSignature hks) (nodupRemoveSignature hnd)]

/-- Witness for C3 at a concrete record: a three-member object with its
members rotated canonicalizes to the same header, and the header's
first byte is non-whitespace. -/
theorem canonicalization_spec_witness :
    getPayloadHeader (.obj [("b", .num 1), ("a", .null), ("signature", .str "sg")])
      = getPayloadHeader (.obj [("a", .null), ("signature", .str "sg"), ("b", .num 1)])
    ∧ wsCode 123 = false := by
  constructor
  · refine (canonicalization_spec
      (.obj [("b", .num 1), ("a", .null), ("signature", .str "sg")])
      (.obj [("a", .null), ("signature", .str "sg"), ("b", .num 1)])).2.2.2.2 ?_ (by decide)
    exact KeyShuffle.trans
      (KeyShuffle.objSwap ("b", .num 1) ("a", .null) [("signature", .str "sg")])
      (KeyShuffle.objCons (ksRefl _)
        (KeyShuffle.objSwap ("b", .num 1) ("signature", .str "sg") []))
  · exact (canonicalization_spec
      (.obj [("b", .num 1), ("a", .null), ("signature", .str "sg")])
      .null).2.2.1 (by decide) 123 (by decide)

/-! ## Byte utilities and the error-correcting channel
(`src/services/imageService.ts`, watermark section, lines 238–292) -/

/-- JavaScript `>>> 0`: reduce to an unsigned 32-bit value. -/
def u32 (n : Nat) : Nat := n % 4294967296

/-- `checksum32`: running byte sum, reduced to 32 bits at every step. -/
def checksum32 (bytes : List Nat) : Nat := bytes.foldl (fun s b => u32 (s + b)) 0

theorem checksum32_foldl (s : Nat) (bytes : List Nat) :
    bytes.foldl (fun s b => u32 (s + b)) (u32 s) = u32 (s + bytes.sum) := by
  induction bytes generalizing s with
  | nil => simp [u32]
  | cons b rest ih =>
    simp only [List.foldl_cons, List.sum_cons]
    have h1 : u32 (u32 s + b) = u32 (s + b) := by
      simp [u32, Nat.mod_add_mod]
    rw [h1, ih (s + b), Nat.add_assoc]

/-- The running 32-bit checksum equals the plain byte sum mod `2^32`. -/
theorem checksum32_eq_sum_mod (bytes : List Nat) :
    checksum32 bytes = bytes.sum % 4294967296 := by
  have := checksum32_foldl 0 bytes
  simpa [checksum32, u32] using this

/-- `withRepetition`: every byte of the frame is written three times in a
row (`REPETITION_FACTOR = 3`). -/
def withRepetition (bytes : List Nat) : List Nat :=
  (bytes.map (fun b => [b, b, b])).flatten

/-- The insertion-ordered occurrence counts of a chunk (the JavaScript
`Map` built by `majorityVote`). -/
def bumpCount : List (Nat × Nat) → Nat → List (Nat × Nat)
  | [], byte => [(byte, 1)]
  | (v, c) :: rest, byte =>
      if v = byte then (v, c + 1) :: rest else (v, c) :: bumpCount rest byte

/-- Occurrence counts of a chunk, in first-occurrence order. -/
def countsOf (chunk : List Nat) : List (Nat × Nat) := chunk.foldl bumpCount []

/-- `majorityVote`: the value with the strictly largest count wins; on
ties the earliest-inserted value is kept; mismatches are the chunk length
minus the winning count. -/
def majorityVote (chunk : List Nat) : Nat × Nat :=
  let best := (countsOf chunk).foldl
    (fun best vc => if vc.2 > best.2 then vc else best) (chunk.headD 0, 0)
  (best.1, chunk.length - best.2)

/-- Split into complete groups of three, discarding any remainder
(`usableLength = floor(len / 3) * 3`). -/
def chunk3 : List Nat → List (List Nat)
  | a :: b :: c :: rest => [a, b, c] :: chunk3 rest
  | _ => []

/-- `recoverRepetition`: majority-decode every group of three and count
the mismatched copies. -/
def recoverRepetition (data : List Nat) : List Nat × Nat :=
  ((chunk3 data).map (fun c => (majorityVote c).1),
   ((chunk3 data).map (fun c => (majorityVote c).2)).sum)

@[simp] theorem chunk3_nil : chunk3 [] = [] := rfl

@[simp] theorem chunk3_cons3 (a b c : Nat) (rest : List Nat) :
    chunk3 (a :: b :: c :: rest) = [a, b, c] :: chunk3 rest := rfl

theorem majorityVote_same (b : Nat) : majorityVote [b, b, b] = (b, 0) := by
  simp [majorityVote, countsOf, bumpCount]

theorem majorityVote_corrupt_first (v b : Nat) :
    majorityVote [v, b, b] = (b, if v = b then 0 else 1) := by
  by_cases hv : v = b
  · simp [majorityVote, countsOf, bumpCount, hv]
  · simp [majorityVote, countsOf, bumpCount, hv]

theorem majorityVote_corrupt_mid (v b : Nat) :
    majorityVote [b, v, b] = (b, if v = b then 0 else 1) := by
  by_cases hv : v = b
  · simp [majorityVote, countsOf, bumpCount, hv]
  · simp [majorityVote, countsOf, bumpCount, hv, Ne.symm hv]

theorem majorityVote_corrupt_last (v b : Nat) :
    majorityVote [b, b, v] = (b, if v = b then 0 else 1) := by
  by_cases hv : v = b
  · simp [majorityVote, countsOf, bumpCount, hv]
  · simp [majorityVote, countsOf, bumpCount, hv, Ne.symm hv]

theorem chunk3_withRepetition (F rest : List Nat) :
    chunk3 (withRepetition F ++ rest) = F.map (fun b => [b, b, b]) ++ chunk3 rest := by
  induction F with
  | nil => simp [withRepetition]
  | cons b F' ih => simpa [withRepetition, chunk3] using ih

/-- Majority decoding of an uncorrupted triple-replicated stream (with any
trailing junk) recovers the frame exactly and charges all mismatches to
the junk. -/
theorem recoverRepetition_withRepetition (F rest : List Nat) :
    recoverRepetition (withRepetition F ++ rest)
      = (F ++ (recoverRepetition rest).1, (recoverRepetition rest).2) := by
  simp only [recoverRepetition, chunk3_withRepetition, List.map_append,
    List.map_map, List.sum_append, Prod.mk.injEq]
  constructor
  · have h : List.map ((fun c => (majorityVote c).1) ∘ fun b => [b, b, b]) F = F := by
      conv_rhs => rw [← List.map_id F]
      exact List.map_congr_left (fun b _ => by simp [majorityVote_same])
    rw [h]
  · have h : ∀ b ∈ F, ((fun c => (majorityVote c).2) ∘ fun b => [b, b, b]) b = 0 :=
      fun b _ => by simp [majorityVote_same]
    rw [List.map_congr_left h]
    simp

/-- C6: corrupting a single byte of the 3×-replicated stream, at any
position and to any value, still majority-decodes to exactly the original
frame; the corrupted copy is counted as one mismatch (zero when the
"corruption" writes the original value back), and an uncorrupted stream
decodes with zero mismatches. -/
theorem triple_repetition_recovery (F : List Nat) (j v : Nat)
    (hj : j < 3 * F.length) :
    (recoverRepetition ((withRepetition F).set j v)).1 = F
    ∧ (recoverRepetition ((withRepetition F).set j v)).2
        = (if v = F.getD (j / 3) 0 then 0 else 1)
    ∧ recoverRepetition (withRepetition F) = (F, 0) := by
  have hmain : ∀ (F : List Nat) (j : Nat), j < 3 * F.length →
      recoverRepetition ((withRepetition F).set j v)
        = (F, if v = F.getD (j / 3) 0 then 0 else 1) := by
    intro F
    induction F with
    | nil => intro j hj; simp at hj
    | cons b F' ih =>
      intro j hj
      have hrep : withRepetition (b :: F') = b :: b :: b :: withRepetition F' := by
        simp [withRepetition]
      have hpure : recoverRepetition (withRepetition F') = (F', 0) := by
        simpa [recoverRepetition] using recoverRepetition_withRepetition F' []
      have hp1 : List.map (fun c => (majorityVote c).1) (chunk3 (withRepetition F'))
          = F' := congrArg Prod.fst hpure
      have hp2 : (List.map (fun c => (majorityVote c).2)
          (chunk3 (withRepetition F'))).sum = 0 := congrArg Prod.snd hpure
      match j, hj with
      | 0, _ =>
        rw [hrep]
        simp only [List.set_cons_zero]
        simp [recoverRepetition, majorityVote_corrupt_first, hp1, hp2]
      | 1, _ =>
        rw [hrep]
        simp only [List.set_cons_succ, List.set_cons_zero]
        simp [recoverRepetition, majorityVote_corrupt_mid, hp1, hp2]
      | 2, _ =>
        rw [hrep]
        simp only [List.set_cons_succ, List.set_cons_zero]
        simp [recoverRepetition, majorityVote_corrupt_last, hp1, hp2]
      | (j' + 3), hj =>
        rw [hrep]
        simp only [List.set_cons_succ]
        have hlt : j' < 3 * F'.length := by simp at hj; omega
        have := ih j' hlt
        have hdiv : (j' + 3) / 3 = j' / 3 + 1 := by omega
        have h1 := congrArg Prod.fst this
        have h2 := congrArg Prod.snd this
        simp only [recoverRepetition] at h1 h2
        simp [recoverRepetition, majorityVote_same, h1, h2, hdiv]
  have h := hmain F j hj
  exact ⟨congrArg Prod.fst h, congrArg Prod.snd h,
    by simpa [recoverRepetition] using recoverRepetition_withRepetition F []⟩

/-- Witness for C6: a concrete corrupted stream. -/
theorem triple_repetition_recovery_witness :
    (recoverRepetition ((withRepetition [10, 20]).set 4 7)).1 = [10, 20]
    ∧ (recoverRepetition ((withRepetition [10, 20]).set 4 7)).2 = 1
    ∧ recoverRepetition (withRepetition [10, 20]) = ([10, 20], 0) := by
  have h := triple_repetition_recovery [10, 20] 4 7 (by norm_num)
  exact ⟨h.1, by simpa using h.2.1, h.2.2⟩

/-! ## The payload data model (`src/types.ts`) -/

/-- `SigScheme`: the two first-class signature schemes. -/
inductive SigScheme where
  | rsa
  | ecc
deriving DecidableEq, Inhabited

/-- The scheme's string value (`'rsa-pss-sha256'` / `'ecdsa-p256-sha256'`). -/
def SigScheme.toStr : SigScheme → String
  | .rsa => "rsa-pss-sha256"
  | .ecc => "ecdsa-p256-sha256"

/-- `FilterType`. -/
inductive FilterType where
  | none
  | grayscale
  | sepia
  | invert
deriving DecidableEq

/-- The filter's string value. -/
def FilterType.toStr : FilterType → String
  | .none => "none"
  | .grayscale => "grayscale"
  | .sepia => "sepia"
  | .invert => "invert"

/-- `EditOperation`: the tagged edit-log variants. Real-valued fields are
modelled as integer scalars; they are opaque to every operation here. -/
inductive EditOperation where
  | brightness (delta : Int)
  | contrast (delta : Int)
  | crop (x y w h : Int)
  | rotate (angle : Int)
  | compress (quality : Int)
  | filter (type : FilterType)
  | text (text : String) (x y : Int) (font color : String)
deriving DecidableEq

/-- `Snapshot` (`codec` is always `'webp'`). -/
structure Snapshot where
  w : Nat
  h : Nat
  bytes_b64 : String
deriving DecidableEq

/-- `HistoryEntry`. -/
structure HistoryEntry where
  version : Nat
  sha256 : String
  parent_hash : Option String
  timestamp : String
  signer : String
  sig_scheme : SigScheme
  edit_log : List EditOperation
  snapshot : Option Snapshot
  signature : String
deriving DecidableEq, Inhabited

/-- The `_dct_metadata` record optionally carried by a `ChainedPayload`. -/
structure DctMetadata where
  chain_id : String
  version_count : Nat
  last_version_hash : String
deriving DecidableEq

/-- `ChainedPayload`. -/
structure ChainedPayload where
  chain_id : String
  history : List HistoryEntry
  dct_metadata : Option DctMetadata := Option.none
deriving DecidableEq

/-- `CriticalMetadata` as carried by the DCT layer (`dctService.ts`). -/
structure CriticalMetadata where
  chain_id : String
  version_count : Nat
  last_version_hash : String
  checksum : String
deriving DecidableEq

/-! ### JSON views, with JavaScript insertion-order keys

The key orders are those of the object literals that create these records
(`recordEdit` calls and `handleCommit` in the `ImageWorkflow` component,
`createSnapshot` in `imageService.ts`, the `_dct_metadata` assignment in
`extractInternal`). -/

/-- An edit operation as the JSON object `recordEdit` builds. -/
def editOpToJson : EditOperation → Json
  | .brightness d => .obj [("op", .str "brightness"), ("delta", .num d)]
  | .contrast d => .obj [("op", .str "contrast"), ("delta", .num d)]
  | .crop x y w h =>
      .obj [("op", .str "crop"), ("x", .num x), ("y", .num y),
            ("w", .num w), ("h", .num h)]
  | .rotate a => .obj [("op", .str "rotate"), ("angle", .num a)]
  | .compress q => .obj [("op", .str "compress"), ("quality", .num q)]
  | .filter t => .obj [("op", .str "filter"), ("type", .str t.toStr)]
  | .text t x y f c =>
      .obj [("op", .str "text"), ("text", .str t), ("x", .num x),
            ("y", .num y), ("font", .str f), ("color", .str c)]

/-- A snapshot as the JSON object `createSnapshot` returns. -/
def snapshotToJson (s : Snapshot) : Json :=
  .obj [("w", .num s.w), ("h", .num s.h), ("codec", .str "webp"),
        ("bytes_b64", .str s.bytes_b64)]

/-- `string | null`. -/
def optStrToJson : Option String → Json
  | some s => .str s
  | Option.none => .null

/-- `Snapshot | null`. -/
def optSnapshotToJson : Option Snapshot → Json
  | some s => snapshotToJson s
  | Option.none => .null

/-- A history entry as the JSON object `handleCommit` builds (spread of
`newEntry`, then `signature`). -/
def entryToJson (e : HistoryEntry) : Json :=
  .obj [("version", .num e.version), ("sha256", .str e.sha256),
        ("parent_hash", optStrToJson e.parent_hash),
        ("timestamp", .str e.timestamp), ("signer", .str e.signer),
        ("sig_scheme", .str e.sig_scheme.toStr),
        ("edit_log", .arr (e.edit_log.map editOpToJson)),
        ("snapshot", optSnapshotToJson e.snapshot),
        ("signature", .str e.signature)]

/-- The `_dct_metadata` member as assigned in `extractInternal`. -/
def dctMetadataToJson (m : DctMetadata) : Json :=
  .obj [("chain_id", .str m.chain_id), ("version_count", .num m.version_count),
        ("last_version_hash", .str m.last_version_hash)]

/-- A payload as the JSON object the commit path builds:
`{chain_id, history}`, with `_dct_metadata` appended last when present. -/
def payloadToJson (p : ChainedPayload) : Json :=
  .obj ([("chain_id", .str p.chain_id),
         ("history", .arr (p.history.map entryToJson))]
    ++ (match p.dct_metadata with
        | some m => [("_dct_metadata", dctMetadataToJson m)]
        | Option.none => []))

/-! ## The LSB frame (`framePayload`, `imageService.ts` lines 294–319) -/

/-- Big-endian bytes of a 32-bit value, as the four `(x >>> k) & 0xff`
stores write them. -/
def be32 (n : Nat) : List Nat :=
  [u32 n / 16777216 % 256, u32 n / 65536 % 256, u32 n / 256 % 256, u32 n % 256]

/-- The 7-byte frame magic `"ICLSB01"`. -/
def LSB_MAGIC : List Nat := [73, 67, 76, 83, 66, 48, 49]

/-- The 7-byte end marker `"ICEND01"`. -/
def LSB_END_MARKER : List Nat := [73, 67, 69, 78, 68, 48, 49]

/-- The bytes handed to `pako.deflate`:
`TEXT_ENCODER.encode(JSON.stringify(payload))`. -/
def frameCompressInput (p : ChainedPayload) : List Nat :=
  stringifyJson (payloadToJson p)

/-- `framePayload`, parameterized by the external DEFLATE implementation:
magic, u32 length, u32 checksum, compressed bytes, end marker. -/
def framePayload (deflate : List Nat → List Nat) (p : ChainedPayload) : List Nat :=
  LSB_MAGIC ++ be32 (deflate (frameCompressInput p)).length
    ++ be32 (checksum32 (deflate (frameCompressInput p)))
    ++ deflate (frameCompressInput p) ++ LSB_END_MARKER

/-- Modelled from the spec (§4.4): the byte string the spec says is
compressed into the LSB frame — the canonical (recursively key-sorted)
JSON serialization of the `ChainedPayload` with the optional
`dct_metadata` field omitted. Defined from the spec's words, for
comparison with the source's `frameCompressInput`. -/
def specLsbSerialization (p : ChainedPayload) : List Nat :=
  stringifyJson (canonicalize (payloadToJson { p with dct_metadata := Option.none }))

theorem be32_length (n : Nat) : (be32 n).length = 4 := rfl

/-- C5 (amended): the LSB frame is exactly magic `"ICLSB01"`, the u32
big-endian length of the compressed bytes, a u32 big-endian checksum equal
to the byte sum mod `2^32`, the compressed bytes, and the end marker
`"ICEND01"` — where the compressed bytes are the DEFLATE of
`JSON.stringify(payload)` (insertion-order keys, `_dct_metadata` included
when present), not of the canonical dct-free serialization. -/
theorem framePayload_layout (deflate : List Nat → List Nat) (p : ChainedPayload) :
    framePayload deflate p
      = LSB_MAGIC ++ be32 (deflate (frameCompressInput p)).length
        ++ be32 (checksum32 (deflate (frameCompressInput p)))
        ++ deflate (frameCompressInput p) ++ LSB_END_MARKER
    ∧ checksum32 (deflate (frameCompressInput p))
        = (deflate (frameCompressInput p)).sum % 2 ^ 32
    ∧ (framePayload deflate p).length
        = 22 + (deflate (frameCompressInput p)).length
    ∧ (framePayload deflate p).take 7 = LSB_MAGIC
    ∧ ((framePayload deflate p).drop 7).take 4
        = be32 (deflate (frameCompressInput p)).length
    ∧ ((framePayload deflate p).drop 11).take 4
        = be32 (checksum32 (deflate (frameCompressInput p)))
    ∧ ((framePayload deflate p).drop 15).take
          (deflate (frameCompressInput p)).length
        = deflate (frameCompressInput p)
    ∧ (framePayload deflate p).drop (15 + (deflate (frameCompressInput p)).length)
        = LSB_END_MARKER := by
  set c := deflate (frameCompressInput p) with hc
  have h7 : (framePayload deflate p).drop 7
      = be32 c.length ++ (be32 (checksum32 c) ++ (c ++ LSB_END_MARKER)) := by
    show (LSB_MAGIC ++ (be32 c.length ++ (be32 (checksum32 c)
      ++ (c ++ LSB_END_MARKER)))).drop 7 = _
    exact List.drop_left LSB_MAGIC _
  have h11 : (framePayload deflate p).drop 11
      = be32 (checksum32 c) ++ (c ++ LSB_END_MARKER) := by
    have h47 : (11 : Nat) = 7 + 4 := by norm_num
    rw [h47, ← List.drop_drop, h7]
    exact List.drop_left (be32 c.length) _
  have h15 : (framePayload deflate p).drop 15 = c ++ LSB_END_MARKER := by
    have h114 : (15 : Nat) = 11 + 4 := by norm_num
    rw [h114, ← List.drop_drop, h11]
    exact List.drop_left (be32 (checksum32 c)) _
  refine ⟨rfl, by simpa using checksum32_eq_sum_mod c, ?_, ?_, ?_, ?_, ?_, ?_⟩
  · simp [framePayload, ← hc, LSB_MAGIC, LSB_END_MARKER, be32]
    omega
  · show (LSB_MAGIC ++ (be32 c.length ++ (be32 (checksum32 c)
      ++ (c ++ LSB_END_MARKER)))).take 7 = _
    exact List.take_left LSB_MAGIC _
  · rw [h7]; exact List.take_left (be32 c.length) _
  · rw [h11]; exact List.take_left (be32 (checksum32 c)) _
  · have : (15 + c.length : Nat) = c.length + 15 := by omega
    rw [h15]; exact List.take_left c _
  · rw [← List.drop_drop, h15]
    exact List.drop_left c _

/-- The concrete payload refuting C5's description of the compressed
content: `_dct_metadata` present, empty history. -/
def p0dct : ChainedPayload :=
  { chain_id := "x", history := [],
    dct_metadata := some { chain_id := "a", version_count := 1,
                           last_version_hash := "b" } }

/-- Counterexample to C5 as stated: already for the identity compressor,
the frame built by `framePayload` differs from
[magic ++ length ++ checksum ++ DEFLATE(canonical serialization without
dct_metadata) ++ end marker]: the code deflates `JSON.stringify(payload)`
with `_dct_metadata` kept and keys unsorted. -/
theorem framePayload_not_spec :
    framePayload id p0dct
      ≠ LSB_MAGIC ++ be32 (id (specLsbSerialization p0dct)).length
        ++ be32 (checksum32 (id (specLsbSerialization p0dct)))
        ++ id (specLsbSerialization p0dct) ++ LSB_END_MARKER := by
  decide

/-! ## The canvas LSB layer (`imageService.ts` lines 321–370) -/

/-- An RGBA canvas: width, height, and the `ImageData` byte buffer (for a
real canvas, `data.length = 4 * width * height`). -/
structure Canvas where
  width : Nat
  height : Nat
  data : List Nat
deriving DecidableEq

/-- MSB-first bits of one byte (`(byte >> (7 - k)) & 1`). -/
def byteBitsMsb (b : Nat) : List Nat :=
  [b / 128 % 2, b / 64 % 2, b / 32 % 2, b / 16 % 2,
   b / 8 % 2, b / 4 % 2, b / 2 % 2, b % 2]

/-- The whole bit stream of a byte sequence, MSB-first per byte. -/
def toBits (bytes : List Nat) : List Nat := (bytes.map byteBitsMsb).flatten

/-- The write loop of `embedBytesAsLsb`: walk the RGBA buffer from index
`i`, skip every 4th byte (alpha, `(i+1) % 4 === 0`), and replace the
least-significant bit of each remaining byte
(`data[i] = (data[i] & 0xfe) | bit`) until the bits run out. -/
def embedCore : List Nat → List Nat → Nat → List Nat
  | [], _, _ => []
  | d :: rest, bits, i =>
    if (i + 1) % 4 = 0 then d :: embedCore rest bits (i + 1)
    else
      match bits with
      | [] => d :: rest
      | b :: bs => (2 * (d / 2) + b) :: embedCore rest bs (i + 1)

/-- The capacity error thrown by `embedBytesAsLsb`, carrying the numbers
interpolated into its message. -/
inductive LsbError where
  | capacityExceeded (needed available : Nat)
deriving DecidableEq

/-- `embedBytesAsLsb`: capacity check
(`requiredBits = bytes.length * 8`, `availableBits =
Math.floor((data.length / 4) * 3)`), then the LSB write. -/
def embedBytesAsLsb (c : Canvas) (bytes : List Nat) : Except LsbError Canvas :=
  let requiredBits := bytes.length * 8
  let availableBits := 3 * c.data.length / 4
  if requiredBits > availableBits then
    .error (.capacityExceeded requiredBits availableBits)
  else .ok { c with data := embedCore c.data (toBits bytes) 0 }

/-- LSBs of the non-alpha bytes from index `i` on (the read loop of
`extractLsbBytes`). -/
def lsbBits : List Nat → Nat → List Nat
  | [], _ => []
  | d :: rest, i =>
    if (i + 1) % 4 = 0 then lsbBits rest (i + 1) else d % 2 :: lsbBits rest (i + 1)

/-- Reassemble bytes from bits, MSB first, dropping a trailing partial
byte. -/
def bitsToBytes : List Nat → List Nat
  | b0 :: b1 :: b2 :: b3 :: b4 :: b5 :: b6 :: b7 :: rest =>
      (b0 * 128 + b1 * 64 + b2 * 32 + b3 * 16 + b4 * 8 + b5 * 4 + b6 * 2 + b7)
        :: bitsToBytes rest
  | _ => []

/-- `extractLsbBytes`: read `floor(totalBits / 8)` bytes from the LSB
plane, where `totalBits = Math.floor((data.length / 4) * 3)`. -/
def extractLsbBytes (c : Canvas) : List Nat :=
  (bitsToBytes (lsbBits c.data 0)).take (3 * c.data.length / 4 / 8)

/-- Number of non-alpha positions in the buffer, counting indices from
`i`. -/
def nonAlphaFrom : List Nat → Nat → Nat
  | [], _ => 0
  | _ :: rest, i => (if (i + 1) % 4 = 0 then 0 else 1) + nonAlphaFrom rest (i + 1)

/-- Number of non-alpha bytes of the buffer. -/
def nonAlphaCount (data : List Nat) : Nat := nonAlphaFrom data 0

theorem nonAlphaFrom_add4 : ∀ (data : List Nat) (i : Nat),
    nonAlphaFrom data (i + 4) = nonAlphaFrom data i
  | [], _ => rfl
  | _ :: rest, i => by
    simp only [nonAlphaFrom]
    have h : (i + 4 + 1) % 4 = (i + 1) % 4 := by omega
    rw [h, show i + 4 + 1 = i + 1 + 4 by omega, nonAlphaFrom_add4 rest (i + 1)]

/-- For a whole number of RGBA pixels, the non-alpha byte count is
`3 * data.length / 4` — exactly the code's `availableBits` (in bits, one
bit per non-alpha byte). -/
theorem nonAlphaCount_of_dvd : ∀ (data : List Nat), 4 ∣ data.length →
    nonAlphaCount data = 3 * data.length / 4
  | [], _ => rfl
  | [_], h => by simp at h
  | [_, _], h => by simp at h; omega
  | [_, _, _], h => by simp at h; omega
  | w :: x :: y :: z :: rest, h => by
    have h' : 4 ∣ rest.length := by
      simp only [List.length_cons] at h
      omega
    have ih : nonAlphaFrom rest 0 = 3 * rest.length / 4 :=
      nonAlphaCount_of_dvd rest h'
    have h4 : nonAlphaFrom rest 4 = nonAlphaFrom rest 0 := by
      simpa using nonAlphaFrom_add4 rest 0
    have hstep : nonAlphaFrom (w :: x :: y :: z :: rest) 0
        = 3 + nonAlphaFrom rest 0 := by
      norm_num [nonAlphaFrom, h4]
      omega
    unfold nonAlphaCount
    rw [hstep, ih]
    simp only [List.length_cons]
    omega

theorem withRepetition_length (F : List Nat) :
    (withRepetition F).length = 3 * F.length := by
  induction F with
  | nil => rfl
  | cons b F' ih => simp [withRepetition] at ih ⊢; omega

/-- Equality instance for the result of the LSB write. -/
instance : DecidableEq (Except LsbError Canvas) := fun a b =>
  match a, b with
  | .error e1, .error e2 =>
      if h : e1 = e2 then isTrue (by rw [h]) else isFalse (by simp [h])
  | .ok c1, .ok c2 =>
      if h : c1 = c2 then isTrue (by rw [h]) else isFalse (by simp [h])
  | .error _, .ok _ => isFalse (by simp)
  | .ok _, .error _ => isFalse (by simp)

/-- Unfolding equation of `embedBytesAsLsb`. -/
theorem embedBytesAsLsb_eq (c : Canvas) (bytes : List Nat) :
    embedBytesAsLsb c bytes =
      if bytes.length * 8 > 3 * c.data.length / 4 then
        .error (.capacityExceeded (bytes.length * 8) (3 * c.data.length / 4))
      else .ok { c with data := embedCore c.data (toBits bytes) 0 } := rfl

/-- C7 (amended): LSB embedding of the replicated frame fails with
`CapacityExceeded` iff `8·3·|frame|` bits exceed `availableBits =
floor(3·|data|/4)`; it succeeds iff the bound holds. For a whole number of
RGBA pixels `availableBits` equals the number of non-alpha bytes
(`3·#pixels`) — not `3·(#non-alpha bytes)` as the claim reads. -/
theorem lsb_capacity_spec (c : Canvas) (frame : List Nat) :
    (embedBytesAsLsb c (withRepetition frame)
        = .error (.capacityExceeded (8 * (3 * frame.length)) (3 * c.data.length / 4))
      ↔ 8 * (3 * frame.length) > 3 * c.data.length / 4)
    ∧ ((∃ c', embedBytesAsLsb c (withRepetition frame) = .ok c')
      ↔ 8 * (3 * frame.length) ≤ 3 * c.data.length / 4)
    ∧ (4 ∣ c.data.length → 3 * c.data.length / 4 = nonAlphaCount c.data) := by
  have hlen : (withRepetition frame).length * 8 = 8 * (3 * frame.length) := by
    rw [withRepetition_length]; ring
  have hrw := embedBytesAsLsb_eq c (withRepetition frame)
  rw [hlen] at hrw
  refine ⟨?_, ?_, fun h => (nonAlphaCount_of_dvd c.data h).symm⟩
  · rw [hrw]
    by_cases hcap : 8 * (3 * frame.length) > 3 * c.data.length / 4
    · simp [hcap]
    · simp only [if_neg hcap]
      constructor
      · intro h
        simp at h
      · intro h
        exact absurd h hcap
  · rw [hrw]
    by_cases hcap : 8 * (3 * frame.length) > 3 * c.data.length / 4
    · simp only [if_pos hcap]
      constructor
      · rintro ⟨c', hc'⟩
        simp at hc'
      · intro h
        omega
    · simp only [if_neg hcap]
      exact ⟨fun _ => by omega, fun _ => ⟨_, rfl⟩⟩

/-- Witness for C7: a 2-byte frame on a 4-pixel canvas needs 48 bits but
only 12 are available, and for the 16-byte RGBA buffer `availableBits`
equals the non-alpha byte count. -/
theorem lsb_capacity_spec_witness :
    embedBytesAsLsb ⟨2, 2, List.replicate 16 0⟩ (withRepetition [0, 1])
        = .error (.capacityExceeded 48 12)
    ∧ (3 : Nat) * 16 / 4 = nonAlphaCount (List.replicate 16 0) := by
  have h := lsb_capacity_spec ⟨2, 2, List.replicate 16 0⟩ [0, 1]
  refine ⟨?_, ?_⟩
  · have h1 := h.1.mpr (by norm_num)
    exact h1
  · have h2 := h.2.2 (by norm_num)
    exact h2

/-- Counterexample to C7 as stated: 4 pixels (16 RGBA bytes, 12 non-alpha
bytes) and a 1-byte frame. The claim's bound `8·3·1 = 24 ≤ 3·12 = 36`
predicts success, but the code raises `CapacityExceeded` (only 12 bits of
capacity). -/
theorem lsb_capacity_not_spec :
    embedBytesAsLsb ⟨2, 2, List.replicate 16 0⟩ (withRepetition [0])
        = .error (.capacityExceeded 24 12)
    ∧ 8 * 3 * 1 ≤ 3 * nonAlphaCount (List.replicate 16 0) := by
  decide

theorem toBits_bits_lt_two (bytes : List Nat) : ∀ b ∈ toBits bytes, b < 2 := by
  intro b hb
  simp only [toBits, List.mem_flatten] at hb
  obtain ⟨l, hl, hbl⟩ := hb
  obtain ⟨x, _, rfl⟩ := List.mem_map.mp hl
  simp only [byteBitsMsb, List.mem_cons, List.not_mem_nil, or_false] at hbl
  rcases hbl with rfl | rfl | rfl | rfl | rfl | rfl | rfl | rfl <;> omega

theorem toBits_length (bytes : List Nat) : (toBits bytes).length = 8 * bytes.length := by
  induction bytes with
  | nil => rfl
  | cons b rest ih => simp [toBits, byteBitsMsb] at ih ⊢; omega

theorem embedCore_length : ∀ (data bits : List Nat) (i : Nat),
    (embedCore data bits i).length = data.length
  | [], _, _ => rfl
  | d :: rest, bits, i => by
    simp only [embedCore]
    split
    · simp [embedCore_length rest bits (i + 1)]
    · match bits with
      | [] => rfl
      | b :: bs => simp [embedCore_length rest bs (i + 1)]

/-- Elementwise description of the LSB write: alpha bytes are untouched,
written bytes change only in their least-significant bit, and every byte
at or beyond the `|bits|`-th non-alpha position is untouched. -/
theorem embedCore_getD : ∀ (data bits : List Nat) (i : Nat),
    (∀ b ∈ bits, b < 2) → ∀ j, j < data.length →
      (((i + j + 1) % 4 = 0 → (embedCore data bits i).getD j 0 = data.getD j 0)
      ∧ (embedCore data bits i).getD j 0 / 2 = data.getD j 0 / 2
      ∧ (nonAlphaFrom (data.take j) i ≥ bits.length →
          (embedCore data bits i).getD j 0 = data.getD j 0))
  | [], _, _, _, j, hj => by simp at hj
  | d :: rest, bits, i, hbits, 0, _ => by
    simp only [embedCore, List.take_zero, nonAlphaFrom, List.getD_cons_zero]
    split
    · rename_i hi
      refine ⟨fun _ => ?_, ?_, fun _ => ?_⟩ <;> simp
    · rename_i hi
      match bits with
      | [] => refine ⟨fun _ => ?_, ?_, fun _ => ?_⟩ <;> simp
      | b :: bs =>
        simp only [List.getD_cons_zero]
        have hb : b < 2 := hbits b (by simp)
        have hdiv : (2 * (d / 2) + b) / 2 = d / 2 := by
          rw [Nat.mul_add_div (by norm_num), Nat.div_eq_of_lt hb, Nat.add_zero]
        refine ⟨fun hc => absurd hc (by simpa using hi), hdiv, fun hge => ?_⟩
        simp at hge
  | d :: rest, bits, i, hbits, j + 1, hj => by
    simp only [embedCore]
    split
    · rename_i hi
      have ih := embedCore_getD rest bits (i + 1) hbits j (by simpa using hj)
      have hna : nonAlphaFrom (List.take (j + 1) (d :: rest)) i
          = nonAlphaFrom (List.take j rest) (i + 1) := by
        simp [nonAlphaFrom, hi, List.take_succ_cons]
      simp only [List.getD_cons_succ, hna]
      exact ⟨fun hc => ih.1 (by omega), ih.2.1, fun hge => ih.2.2 hge⟩
    · rename_i hi
      match bits with
      | [] =>
        refine ⟨fun _ => ?_, ?_, fun _ => ?_⟩ <;> simp
      | b :: bs =>
        have ih := embedCore_getD rest bs (i + 1) (fun x hx => hbits x (by simp [hx]))
          j (by simpa using hj)
        have hna : nonAlphaFrom (List.take (j + 1) (d :: rest)) i
            = 1 + nonAlphaFrom (List.take j rest) (i + 1) := by
          simp [nonAlphaFrom, hi, List.take_succ_cons]
        simp only [List.getD_cons_succ, hna, List.length_cons]
        refine ⟨fun hc => ih.1 (by omega), ih.2.1, fun hge => ih.2.2 (by omega)⟩

/-- C10: a successful LSB write leaves the canvas dimensions and buffer
length unchanged, never writes an alpha byte, changes each carrier byte
only in its least-significant bit, and leaves every byte at or beyond the
first `8·|bytes|` non-alpha positions bit-for-bit unchanged. -/
theorem lsb_write_frame_effect (c : Canvas) (bytes : List Nat) (c' : Canvas)
    (h : embedBytesAsLsb c bytes = .ok c') :
    c'.width = c.width ∧ c'.height = c.height ∧ c'.data.length = c.data.length
    ∧ ∀ j, j < c.data.length →
        (((j + 1) % 4 = 0 → c'.data.getD j 0 = c.data.getD j 0)
        ∧ c'.data.getD j 0 / 2 = c.data.getD j 0 / 2
        ∧ (nonAlphaFrom (c.data.take j) 0 ≥ 8 * bytes.length →
            c'.data.getD j 0 = c.data.getD j 0)) := by
  rw [embedBytesAsLsb_eq] at h
  split at h
  · cases h
  · have hc' : c' = { c with data := embedCore c.data (toBits bytes) 0 } :=
      (Except.ok.inj h).symm
    subst hc'
    refine ⟨rfl, rfl, embedCore_length _ _ _, fun j hj => ?_⟩
    have hg := embedCore_getD c.data (toBits bytes) 0 (toBits_bits_lt_two bytes) j hj
    simp only [Nat.zero_add] at hg
    exact ⟨hg.1, hg.2.1, fun hge => hg.2.2 (by rw [toBits_length]; exact hge)⟩

/-- Witness for C10: embedding one byte into a 3-pixel canvas; the alpha
byte at index 3 is unchanged. -/
theorem lsb_write_frame_effect_witness :
    embedBytesAsLsb ⟨3, 1, List.replicate 12 0⟩ [255]
        = .ok ⟨3, 1, embedCore (List.replicate 12 0) (toBits [255]) 0⟩
    ∧ (embedCore (List.replicate 12 0) (toBits [255]) 0).getD 3 0 = 0 := by
  refine ⟨by decide, ?_⟩
  have h := lsb_write_frame_effect ⟨3, 1, List.replicate 12 0⟩ [255]
    ⟨3, 1, embedCore (List.replicate 12 0) (toBits [255]) 0⟩ (by decide)
  have h3 := (h.2.2.2 3 (by decide)).1 (by decide)
  rw [h3]
  decide

/-! ## The commit step (`handleCommit`, `ImageWorkflow` component) -/

/-- The per-commit inputs whose values come from outside the chain logic:
the canvas hash (`sha256` of the rendered blob), the wall clock, the
session identity and scheme, the edit log, the snapshot produced by
`createSnapshot`, and the signature returned by `signPayload`. -/
structure CommitInput where
  currentHash : String
  timestamp : String
  signer : String
  sigScheme : SigScheme
  editLog : List EditOperation
  snap : Snapshot
  signature : String
deriving DecidableEq

/-- The entry `handleCommit` builds:
`version = (lastEntry?.version ?? 0) + 1`,
`parent_hash = lastEntry?.sha256 ?? null`,
`edit_log = editLog.length > 0 ? editLog : []` (always `editLog`), and a
snapshot exactly when this is the initial version or the edit log is
non-empty. -/
def commitEntry (history : List HistoryEntry) (inp : CommitInput) : HistoryEntry :=
  { version := (match history.getLast? with
      | some e => e.version
      | Option.none => 0) + 1
    sha256 := inp.currentHash
    parent_hash := history.getLast?.map (fun e => e.sha256)
    timestamp := inp.timestamp
    signer := inp.signer
    sig_scheme := inp.sigScheme
    edit_log := inp.editLog
    snapshot := if history = [] ∨ inp.editLog ≠ [] then some inp.snap else Option.none
    signature := inp.signature }

/-- `handleCommit`'s payload update: an empty edit log on a non-initial
version is refused (`alert` + early return); otherwise exactly one signed
entry is appended and the payload is rebuilt as `{chain_id, history}`. -/
def handleCommit (p : ChainedPayload) (inp : CommitInput) : Option ChainedPayload :=
  if p.history ≠ [] ∧ inp.editLog = [] then Option.none
  else some { chain_id := p.chain_id
              history := p.history ++ [commitEntry p.history inp] }

/-- The chain-link relation of invariants I2/I3: consecutive version
numbers and parent hash equal to the predecessor's `sha256`. -/
def chainLink (a b : HistoryEntry) : Prop :=
  b.version = a.version + 1 ∧ b.parent_hash = some a.sha256

instance : DecidableRel chainLink := fun a b =>
  inferInstanceAs (Decidable (b.version = a.version + 1 ∧ b.parent_hash = some a.sha256))

/-- Invariant I1: a non-empty history starts at version 1 with no parent. -/
def headInvariant : List HistoryEntry → Prop
  | [] => True
  | e :: _ => e.version = 1 ∧ e.parent_hash = Option.none

instance : (l : List HistoryEntry) → Decidable (headInvariant l)
  | [] => isTrue trivial
  | _ :: _ => inferInstanceAs (Decidable (_ ∧ _))

/-- Invariants I1 + I2 + I3 for a whole history. -/
def chainInvariant (h : List HistoryEntry) : Prop :=
  headInvariant h ∧ List.Chain' chainLink h

/-- Executable check of I2+I3 (used to decide `chainInvariant` on concrete
histories). -/
def chainLinksB : List HistoryEntry → Bool
  | [] => true
  | [_] => true
  | a :: b :: rest => decide (chainLink a b) && chainLinksB (b :: rest)

theorem chainLinksB_iff : ∀ l : List HistoryEntry,
    chainLinksB l = true ↔ List.Chain' chainLink l
  | [] => by simp [chainLinksB]
  | [_] => by simp [chainLinksB]
  | a :: b :: rest => by
    simp only [chainLinksB, Bool.and_eq_true, decide_eq_true_eq,
      List.chain'_cons, chainLinksB_iff (b :: rest)]

instance (h : List HistoryEntry) : Decidable (chainInvariant h) :=
  decidable_of_iff (headInvariant h ∧ chainLinksB h = true)
    (by unfold chainInvariant; rw [chainLinksB_iff])

/-- C2: on a payload satisfying the chain invariants, a successful commit
appends exactly one entry — version = last version + 1 (1 on empty
history), parent_hash = last entry's sha256 (absent on empty history) —
leaves every existing entry unchanged, leaves chain_id unchanged (I5),
and the resulting history satisfies I1, I2, I3 again. -/
theorem commit_spec (p : ChainedPayload) (inp : CommitInput) (q : ChainedPayload)
    (hq : handleCommit p inp = some q) (hinv : chainInvariant p.history) :
    q.history = p.history ++ [commitEntry p.history inp]
    ∧ (commitEntry p.history inp).version
        = (match p.history.getLast? with
            | some e => e.version
            | Option.none => 0) + 1
    ∧ (commitEntry p.history inp).parent_hash
        = p.history.getLast?.map (fun e => e.sha256)
    ∧ q.chain_id = p.chain_id
    ∧ chainInvariant q.history := by
  unfold handleCommit at hq
  split at hq
  · cases hq
  · rename_i hguard
    have hq' : q = { chain_id := p.chain_id
                     history := p.history ++ [commitEntry p.history inp] } :=
      (Option.some.inj hq).symm
    subst hq'
    refine ⟨rfl, rfl, rfl, rfl, ?_, ?_⟩
    · cases hhist : p.history with
      | nil => simp [headInvariant, commitEntry, hhist]
      | cons f rest =>
        have h1 := hinv.1
        rw [hhist] at h1
        simpa [headInvariant] using h1
    · rw [List.chain'_append]
      refine ⟨hinv.2, List.chain'_singleton _, ?_⟩
      intro x hx y hy
      simp only [List.head?_cons, Option.mem_def, Option.some.injEq] at hy
      subst hy
      simp only [Option.mem_def] at hx
      constructor
      · simp [commitEntry, hx]
      · simp [commitEntry, hx]

/-- Entry used in concrete commit scenarios: a well-formed version 1. -/
def e1c : HistoryEntry :=
  { version := 1, sha256 := "h1", parent_hash := Option.none, timestamp := "t1",
    signer := "s", sig_scheme := .ecc, edit_log := [], snapshot := Option.none,
    signature := "g1" }

/-- A commit input whose only edit is a (non-destructive) brightness op. -/
def inpBrightness : CommitInput :=
  { currentHash := "h2", timestamp := "t2", signer := "s", sigScheme := .ecc,
    editLog := [.brightness 2], snap := { w := 1, h := 1, bytes_b64 := "AA" },
    signature := "g2" }

/-- Witness for C2: committing a brightness edit on a one-entry chain. -/
theorem commit_spec_witness :
    handleCommit ⟨"cid", [e1c], Option.none⟩ inpBrightness
        = some ⟨"cid", [e1c] ++ [commitEntry [e1c] inpBrightness], Option.none⟩
    ∧ (commitEntry [e1c] inpBrightness).parent_hash = some "h1"
    ∧ chainInvariant ([e1c] ++ [commitEntry [e1c] inpBrightness]) := by
  have h := commit_spec ⟨"cid", [e1c], Option.none⟩ inpBrightness
    ⟨"cid", [e1c] ++ [commitEntry [e1c] inpBrightness], Option.none⟩
    (by decide) (by decide)
  refine ⟨by decide, ?_, h.2.2.2.2⟩
  rw [h.2.2.1]
  decide

/-- A destructive edit op per the spec's list: filter, crop, rotate,
compress, text. -/
def isDestructive : EditOperation → Bool
  | .filter _ => true
  | .crop _ _ _ _ => true
  | .rotate _ => true
  | .compress _ => true
  | .text _ _ _ _ _ => true
  | .brightness _ => false
  | .contrast _ => false

theorem chain_versions_pos :
    ∀ {l : List HistoryEntry},
      (∀ f, l.head? = some f → 1 ≤ f.version) → List.Chain' chainLink l →
        ∀ e ∈ l, 1 ≤ e.version := by
  intro l
  induction l with
  | nil => intro _ _ e he; cases he
  | cons a rest ih =>
    intro hhead hchain e he
    rcases List.mem_cons.mp he with rfl | he'
    · exact hhead e rfl
    · have hch := (List.chain'_cons'.mp hchain)
      refine ih ?_ hch.2 e he'
      intro f hf
      have hv := (hch.1 f hf).1
      omega

/-- C9 (amended): the committed entry carries a snapshot iff it is the
initial version (version 1 under the chain invariants, i.e. empty prior
history) or its edit log is non-empty — with no destructive-op condition. -/
theorem commit_snapshot_spec (history : List HistoryEntry) (inp : CommitInput)
    (hinv : chainInvariant history) :
    ((commitEntry history inp).snapshot = some inp.snap
      ↔ ((commitEntry history inp).version = 1 ∨ inp.editLog ≠ []))
    ∧ ((commitEntry history inp).snapshot = Option.none
      ↔ ((commitEntry history inp).version ≠ 1 ∧ inp.editLog = [])) := by
  have hver : (commitEntry history inp).version = 1 ↔ history = [] := by
    cases history with
    | nil => simp [commitEntry]
    | cons f rest =>
      simp only [commitEntry]
      constructor
      · intro h1
        have hne : f :: rest ≠ [] := by simp
        have he : (f :: rest).getLast? = some ((f :: rest).getLast hne) :=
          List.getLast?_eq_getLast _ hne
        rw [he] at h1
        have hmem : (f :: rest).getLast hne ∈ f :: rest := List.getLast_mem hne
        have hpos : 1 ≤ ((f :: rest).getLast hne).version := by
          refine chain_versions_pos ?_ hinv.2 _ hmem
          intro g hg
          simp only [List.head?_cons, Option.some.injEq] at hg
          subst hg
          have hh := hinv.1
          simp only [headInvariant] at hh
          have hv := hh.1
          omega
        have h1' : ((f :: rest).getLast hne).version + 1 = 1 := h1
        omega
      · intro h; cases h
  constructor
  · rw [hver]
    simp only [commitEntry]
    split
    · rename_i hcond
      simpa using hcond
    · rename_i hcond
      push_neg at hcond
      simp [hcond.1, hcond.2]
  · rw [ne_eq, hver]
    simp only [commitEntry]
    split
    · rename_i hcond
      simp only [reduceCtorEq, false_iff]
      intro hcon
      rcases hcond with h | h
      · exact absurd h hcon.1
      · exact absurd hcon.2 h
    · rename_i hcond
      push_neg at hcond
      simp [hcond.1, hcond.2]

/-- Witness for C9's amended statement at a concrete non-initial commit
with a non-empty edit log. -/
theorem commit_snapshot_spec_witness :
    (commitEntry [e1c] inpBrightness).snapshot = some inpBrightness.snap := by
  have h := commit_snapshot_spec [e1c] inpBrightness (by decide)
  exact h.1.mpr (Or.inr (by decide))

/-- Counterexample to C9 as stated: a version-2 commit whose edit log is
one non-destructive brightness op still gets a snapshot, although the
claim requires a destructive op for non-initial versions. -/
theorem commit_snapshot_not_spec :
    (commitEntry [e1c] inpBrightness).snapshot
        = some { w := 1, h := 1, bytes_b64 := "AA" }
    ∧ (commitEntry [e1c] inpBrightness).version = 2
    ∧ (commitEntry [e1c] inpBrightness).edit_log.all
        (fun op => !isDestructive op) = true := by
  decide

/-! ## Chain verification (`runVerification`, `VersionHistory` component) -/

/-- Per-entry verification outcome (`VerificationResult` in
`src/types.ts`; the optional fields the loop never sets are omitted). -/
structure VerificationResult where
  isSignatureValid : Bool
  isChainLinkValid : Bool
  error : Option String
deriving DecidableEq, Inhabited

/-- One step of `runVerification`'s loop: signature check (the external
WebCrypto verifier is a parameter), chain-link check
`entry.parent_hash === previousHash`, the last-entry canvas-hash
comparison (skipped for uploaded images), and error-message accumulation.
`isLast` models `entry === payload.history[payload.history.length - 1]`. -/
def verifyStep (sigValid : HistoryEntry → Bool) (currentHash : Option String)
    (isUploaded : Bool) (prev : Option String) (isLast : Bool)
    (e : HistoryEntry) : VerificationResult × Bool :=
  let sv := sigValid e
  let cl := decide (e.parent_hash = prev)
  let mismatch :=
    match currentHash with
    | some h => isLast && !isUploaded && decide (e.sha256 ≠ h)
    | Option.none => false
  let err0 : Option String :=
    if mismatch then some "Image hash does not match committed version."
    else Option.none
  let err1 : Option String :=
    if sv then err0 else some ((err0.getD "") ++ " Signature invalid.")
  let err2 : Option String :=
    if cl then err1 else some ((err1.getD "") ++ " Hash chain broken.")
  ({ isSignatureValid := sv, isChainLinkValid := cl, error := err2 }, mismatch)

/-- The verification loop: `previousHash` starts `null` and becomes each
entry's `sha256`; the hash-mismatch flags are OR-accumulated. -/
def runVerLoop (sigValid : HistoryEntry → Bool) (currentHash : Option String)
    (isUploaded : Bool) : Option String → List HistoryEntry →
      List VerificationResult × Bool
  | _, [] => ([], false)
  | prev, e :: rest =>
    let step := verifyStep sigValid currentHash isUploaded prev (rest = []) e
    let tail := runVerLoop sigValid currentHash isUploaded (some e.sha256) rest
    (step.1 :: tail.1, step.2 || tail.2)

/-- `runVerification`. -/
def runVerification (sigValid : HistoryEntry → Bool) (p : ChainedPayload)
    (currentHash : Option String) (isUploaded : Bool) :
    List VerificationResult × Bool :=
  runVerLoop sigValid currentHash isUploaded Option.none p.history

theorem runVerLoop_length (sigValid : HistoryEntry → Bool)
    (currentHash : Option String) (isUploaded : Bool) :
    ∀ (l : List HistoryEntry) (prev : Option String),
      ((runVerLoop sigValid currentHash isUploaded prev l).1).length = l.length
  | [], _ => rfl
  | _ :: rest, prev => by
    simp [runVerLoop, runVerLoop_length sigValid currentHash isUploaded rest]

theorem runVerLoop_chain_link (sigValid : HistoryEntry → Bool)
    (currentHash : Option String) (isUploaded : Bool) :
    ∀ (l : List HistoryEntry) (prev : Option String) (i : Nat), i < l.length →
      ((((runVerLoop sigValid currentHash isUploaded prev l).1.getD i
            default).isChainLinkValid = true
        ↔ (l.getD i default).parent_hash
            = (if i = 0 then prev else some ((l.getD (i - 1) default).sha256)))
        ∧ (((runVerLoop sigValid currentHash isUploaded prev l).1.getD i
            default).isChainLinkValid = false →
          ∃ s, ((runVerLoop sigValid currentHash isUploaded prev l).1.getD i
            default).error = some (s ++ " Hash chain broken.")))
  | [], _, i, hi => by simp at hi
  | e :: rest, prev, 0, _ => by
    simp only [runVerLoop, List.getD_cons_zero, if_pos rfl]
    constructor
    · simp [verifyStep]
    · intro hcl
      simp only [verifyStep] at hcl ⊢
      rw [if_neg (by simp [hcl])]
      exact ⟨_, rfl⟩
  | e :: rest, prev, i + 1, hi => by
    have ih := runVerLoop_chain_link sigValid currentHash isUploaded rest
      (some e.sha256) i (by simpa using hi)
    simp only [runVerLoop, List.getD_cons_succ]
    refine ⟨?_, ih.2⟩
    rw [ih.1]
    cases i with
    | zero => simp
    | succ i' => simp

/-- C4 (amended): `runVerification` marks an entry chain-link valid iff
its `parent_hash` equals the previous entry's `sha256` (absent for the
first entry); version numbering (invariant I2) is NOT checked. When the
link is invalid, the per-entry error carries the
`"Hash chain broken."` diagnostic. -/
theorem verify_chain_link_spec (sigValid : HistoryEntry → Bool)
    (p : ChainedPayload) (currentHash : Option String) (isUploaded : Bool)
    (i : Nat) (hi : i < p.history.length) :
    ((runVerification sigValid p currentHash isUploaded).1).length
        = p.history.length
    ∧ ((((runVerification sigValid p currentHash isUploaded).1.getD i
          default).isChainLinkValid = true)
        ↔ (p.history.getD i default).parent_hash
            = (if i = 0 then Option.none
               else some ((p.history.getD (i - 1) default).sha256)))
    ∧ ((((runVerification sigValid p currentHash isUploaded).1.getD i
          default).isChainLinkValid = false) →
        ∃ s, ((runVerification sigValid p currentHash isUploaded).1.getD i
          default).error = some (s ++ " Hash chain broken.")) := by
  have h := runVerLoop_chain_link sigValid currentHash isUploaded p.history
    Option.none i hi
  exact ⟨runVerLoop_length sigValid currentHash isUploaded p.history Option.none,
    h.1, h.2⟩

/-- A version-jumping second entry whose parent hash still matches. -/
def e2bad : HistoryEntry :=
  { version := 5, sha256 := "h2", parent_hash := some "h1", timestamp := "t2",
    signer := "s", sig_scheme := .ecc, edit_log := [], snapshot := Option.none,
    signature := "g2" }

/-- Counterexample to C4 as stated: the history `[v1, v5]` violates
invariant I2 at index 1 (`5 ≠ 1 + 1`), yet `runVerification` marks the
entry chain-link VALID because it only compares parent hashes. -/
theorem verify_chain_link_not_spec :
    (((runVerification (fun _ => true) ⟨"cid", [e1c, e2bad], Option.none⟩
          Option.none false).1).getD 1 default).isChainLinkValid = true
    ∧ e2bad.version ≠ e1c.version + 1 := by
  decide

/-- Witness for C4's amended statement: on the same two-entry history, a
broken parent hash at index 1 is flagged with the chain-broken
diagnostic, and index 0 is valid. -/
theorem verify_chain_link_spec_witness :
    (((runVerification (fun _ => true) ⟨"cid", [e1c, e2bad], Option.none⟩
          Option.none false).1).getD 0 default).isChainLinkValid = true
    ∧ (((runVerification (fun _ => true)
          ⟨"cid", [e1c, { e2bad with parent_hash := some "WRONG" }], Option.none⟩
          Option.none false).1).getD 1 default).isChainLinkValid = false := by
  constructor
  · exact (verify_chain_link_spec (fun _ => true)
      ⟨"cid", [e1c, e2bad], Option.none⟩ Option.none false 0
      (by decide)).2.1.mpr (by decide)
  · have h := (verify_chain_link_spec (fun _ => true)
      ⟨"cid", [e1c, { e2bad with parent_hash := some "WRONG" }], Option.none⟩
      Option.none false 1 (by decide)).2.1
    rw [← Bool.not_eq_true]
    intro hcon
    have := h.mp hcon
    simp at this
    exact absurd this (by decide)

/-! ## Frame location and parsing
(`locateFrame` / `parseFrame`, `imageService.ts` lines 372–446) -/

/-- The signed 32-bit value of a natural number, as JavaScript's bitwise
operators produce it. -/
def toInt32 (n : Nat) : Int :=
  if n % 4294967296 < 2147483648 then (n % 4294967296 : Int)
  else (n % 4294967296 : Int) - 4294967296

/-- `(b0 << 24) | (b1 << 16) | (b2 << 8) | b3` on byte values: a signed
32-bit read. -/
def readI32 (b0 b1 b2 b3 : Nat) : Int :=
  toInt32 (b0 * 16777216 + b1 * 65536 + b2 * 256 + b3)

/-- JavaScript `bytes[k]`: `undefined` outside the array bounds. -/
def jsByte (bytes : List Nat) (k : Int) : Option Nat :=
  if 0 ≤ k ∧ k < (bytes.length : Int) then some (bytes.getD k.toNat 0)
  else Option.none

/-- One candidate start of `locateFrame`'s scan: magic comparison, length
read-back, total-length bound, end-marker comparison, then the
`slice(start, start + totalFrameLength)` result. -/
def frameAt (bytes : List Nat) (start : Nat) : Option (List Nat) :=
  let rest := bytes.drop start
  if rest.take 7 = LSB_MAGIC then
    let len := readI32 (rest.getD 7 0) (rest.getD 8 0) (rest.getD 9 0) (rest.getD 10 0)
    let total : Int := 22 + len
    if (start : Int) + total > (bytes.length : Int) then Option.none
    else if (List.range 7).all (fun i =>
        decide (jsByte bytes ((start : Int) + total - 7 + i)
          = some (LSB_END_MARKER.getD i 0))) then
      some (if total ≤ 0 then [] else rest.take total.toNat)
    else Option.none
  else Option.none

/-- The scan of `locateFrame`, one start position at a time. -/
def locateFrom (bytes : List Nat) : Nat → Nat → Option (List Nat)
  | _, 0 => Option.none
  | start, fuel + 1 =>
    match frameAt bytes start with
    | some f => some f
    | Option.none => locateFrom bytes (start + 1) fuel

/-- `locateFrame`: scan starts `0 .. bytes.length - 22` (none when the
buffer is shorter than a minimal frame). -/
def locateFrame (bytes : List Nat) : Option (List Nat) :=
  if bytes.length < 22 then Option.none
  else locateFrom bytes 0 (bytes.length - 22 + 1)

/-- `parseFrame`, parameterized by the external INFLATE (`pako.inflate`,
throwing modelled as `Option.none`) and `JSON.parse` (likewise): length
and checksum fields are signed 32-bit reads, the compressed slice is
clamped, and the checksum comparison is against the recomputed unsigned
sum. -/
def parseFrame (inflate : List Nat → Option (List Nat))
    (parse : List Nat → Option Json) (frame : List Nat) :
    Option (Json × Bool) :=
  let len := readI32 (frame.getD 7 0) (frame.getD 8 0) (frame.getD 9 0) (frame.getD 10 0)
  let checksum := readI32 (frame.getD 11 0) (frame.getD 12 0) (frame.getD 13 0)
    (frame.getD 14 0)
  let compressed := if len ≤ 0 then [] else (frame.drop 15).take len.toNat
  match inflate compressed with
  | Option.none => Option.none
  | some s =>
    match parse s with
    | Option.none => Option.none
    | some payload => some (payload, decide ((checksum32 compressed : Int) = checksum))

/-! ## `extractInternal` / `embedPayload`
(`imageService.ts` lines 457–527). The DCT layer works in floating-point
pixel space; its embed and extract sides are parameters here. -/

/-- JavaScript truthiness of a parsed JSON value. -/
def jsTruthy : Json → Bool
  | .null => false
  | .bool b => b
  | .num n => decide (n ≠ 0)
  | .str s => decide (s ≠ "")
  | .arr _ => true
  | .obj _ => true

/-- Property read on a parsed JSON record. -/
def objGet (j : Json) (key : String) : Option Json :=
  match j with
  | .obj l => (l.find? (fun p => p.1 == key)).map Prod.snd
  | _ => Option.none

/-- JavaScript property assignment on a parsed JSON record: overwrite in
place, or append as the last member when the key is absent. -/
def objSet (j : Json) (key : String) (v : Json) : Json :=
  match j with
  | .obj l =>
    if (l.find? (fun p => p.1 == key)).isSome then
      .obj (l.map (fun p => if p.1 == key then (p.1, v) else p))
    else .obj (l ++ [(key, v)])
  | other => other

/-- The result record of `extractPayloadWithDetails`. The float
`errorRate` is carried as the exact pair
(`mismatches`, `Math.max(1, decodedBytes.length * 3)`). -/
structure ExtractionResult where
  payload : Option Json
  recovered : Bool
  corruptionDetected : Bool
  errorRate : Option (Nat × Nat)
  criticalMetadata : Option CriticalMetadata
  dctExtracted : Bool
deriving Inhabited

/-- `extractInternal`: DCT read (parameter), LSB plane read, 3-way
majority decode, frame scan, frame parse, `_dct_metadata` enrichment, and
the checksum-gated payload result. -/
def extractInternal (dctExtract : Canvas → Option CriticalMetadata)
    (inflate : List Nat → Option (List Nat)) (parse : List Nat → Option Json)
    (canvas : Canvas) : ExtractionResult :=
  let criticalMetadata := dctExtract canvas
  let decoded := recoverRepetition (extractLsbBytes canvas)
  let rate := (decoded.2, max 1 (decoded.1.length * 3))
  match locateFrame decoded.1 with
  | Option.none =>
    { payload := Option.none, recovered := false, corruptionDetected := true,
      errorRate := some rate, criticalMetadata := criticalMetadata,
      dctExtracted := criticalMetadata.isSome }
  | some frame =>
    match parseFrame inflate parse frame with
    | Option.none =>
      { payload := Option.none, recovered := false, corruptionDetected := true,
        errorRate := some rate, criticalMetadata := criticalMetadata,
        dctExtracted := criticalMetadata.isSome }
    | some (payload0, checksumMatched) =>
      let payload1 :=
        match criticalMetadata with
        | some m =>
          if jsTruthy ((objGet payload0 "_dct_metadata").getD .null) then payload0
          else objSet payload0 "_dct_metadata"
            (dctMetadataToJson
              { chain_id := m.chain_id, version_count := m.version_count,
                last_version_hash := m.last_version_hash })
        | Option.none => payload0
      { payload := if checksumMatched then some payload1 else Option.none,
        recovered := decoded.2 > 0,
        corruptionDetected := !checksumMatched || decoded.2 > 0,
        errorRate := some rate, criticalMetadata := criticalMetadata,
        dctExtracted := criticalMetadata.isSome }

/-- `embedPayload`: DCT-embed the critical metadata (the pixel effect of
`embedCriticalMetadataDCT`, including its try/catch, is the `dctEmbed`
parameter), then frame, triple and LSB-write the payload. -/
def embedPayload (dctEmbed : Canvas → Canvas) (deflate : List Nat → List Nat)
    (p : ChainedPayload) (canvas : Canvas) : Except LsbError Canvas :=
  embedBytesAsLsb (dctEmbed canvas) (withRepetition (framePayload deflate p))

/-! ### The LSB stream round-trip -/

theorem lsbBits_length : ∀ (data : List Nat) (i : Nat),
    (lsbBits data i).length = nonAlphaFrom data i
  | [], _ => rfl
  | d :: rest, i => by
    simp only [lsbBits, nonAlphaFrom]
    split
    · simp [lsbBits_length rest (i + 1)]
    · simp [lsbBits_length rest (i + 1)]
      omega

/-- Writing a bit stream into the LSB plane and reading the plane back
yields the stream followed by the untouched remainder of the original
plane. -/
theorem lsbBits_embedCore : ∀ (data bits : List Nat) (i : Nat),
    (∀ b ∈ bits, b < 2) → bits.length ≤ (lsbBits data i).length →
    lsbBits (embedCore data bits i) i = bits ++ (lsbBits data i).drop bits.length
  | [], bits, i, _, hlen => by
    simp only [lsbBits] at hlen ⊢
    simp only [List.length_nil, Nat.le_zero, List.length_eq_zero] at hlen
    subst hlen
    simp [embedCore, lsbBits]
  | d :: rest, bits, i, hbits, hlen => by
    simp only [embedCore]
    split
    · rename_i hi
      have hlen' : bits.length ≤ (lsbBits rest (i + 1)).length := by
        simpa [lsbBits, hi] using hlen
      simp only [lsbBits, if_pos hi]
      exact lsbBits_embedCore rest bits (i + 1) hbits hlen'
    · rename_i hi
      match bits with
      | [] => simp
      | b :: bs =>
        have hb : b < 2 := hbits b (by simp)
        have hlen' : bs.length ≤ (lsbBits rest (i + 1)).length := by
          simp only [lsbBits, if_neg hi] at hlen
          simpa using hlen
        have hmod : (2 * (d / 2) + b) % 2 = b := by omega
        simp only [lsbBits, if_neg hi, hmod, List.length_cons, List.drop_succ_cons]
        rw [lsbBits_embedCore rest bs (i + 1)
          (fun x hx => hbits x (by simp [hx])) hlen']
        simp

theorem byteBitsMsb_recompose {b : Nat} (hb : b < 256) :
    b / 128 % 2 * 128 + b / 64 % 2 * 64 + b / 32 % 2 * 32 + b / 16 % 2 * 16
      + b / 8 % 2 * 8 + b / 4 % 2 * 4 + b / 2 % 2 * 2 + b % 2 = b := by
  omega

/-- Reassembling a bit stream that starts with whole bytes recovers those
bytes. -/
theorem bitsToBytes_toBits : ∀ (bytes rest : List Nat), (∀ b ∈ bytes, b < 256) →
    bitsToBytes (toBits bytes ++ rest) = bytes ++ bitsToBytes rest
  | [], rest, _ => by simp [toBits]
  | x :: xs, rest, hb => by
    have hx : x < 256 := hb x (by simp)
    have h8 : toBits (x :: xs) = byteBitsMsb x ++ toBits xs := by simp [toBits]
    rw [h8, List.append_assoc]
    simp only [byteBitsMsb, List.cons_append, List.nil_append]
    rw [bitsToBytes]
    rw [bitsToBytes_toBits xs rest (fun b hmem => hb b (by simp [hmem]))]
    rw [byteBitsMsb_recompose hx]

theorem availableBits_le_nonAlphaCount : ∀ data : List Nat,
    3 * data.length / 4 ≤ nonAlphaCount data
  | [] => le_refl _
  | [_] => by simp [nonAlphaCount, nonAlphaFrom]
  | [_, _] => by simp [nonAlphaCount, nonAlphaFrom]
  | [_, _, _] => by simp [nonAlphaCount, nonAlphaFrom]
  | w :: x :: y :: z :: rest => by
    have ih := availableBits_le_nonAlphaCount rest
    have h4 : nonAlphaFrom rest 4 = nonAlphaFrom rest 0 := by
      simpa using nonAlphaFrom_add4 rest 0
    have hstep : nonAlphaFrom (w :: x :: y :: z :: rest) 0
        = 3 + nonAlphaFrom rest 0 := by
      norm_num [nonAlphaFrom, h4]
      omega
    simp only [nonAlphaCount] at ih ⊢
    rw [hstep]
    simp only [List.length_cons]
    omega

/-- Reading the LSB plane of a canvas after a successful in-capacity
write recovers the written bytes as a prefix. -/
theorem extractLsbBytes_embedCore (w h : Nat) (data bytes : List Nat)
    (hbytes : ∀ b ∈ bytes, b < 256)
    (hcap : bytes.length * 8 ≤ 3 * data.length / 4) :
    ∃ junk, extractLsbBytes ⟨w, h, embedCore data (toBits bytes) 0⟩
      = bytes ++ junk := by
  have hlenbits : (toBits bytes).length = 8 * bytes.length := toBits_length bytes
  have hcap' : (toBits bytes).length ≤ (lsbBits data 0).length := by
    rw [hlenbits, lsbBits_length]
    calc 8 * bytes.length = bytes.length * 8 := by ring
    _ ≤ 3 * data.length / 4 := hcap
    _ ≤ nonAlphaCount data := availableBits_le_nonAlphaCount data
  have hstream := lsbBits_embedCore data (toBits bytes) 0
    (toBits_bits_lt_two bytes) hcap'
  have hreassemble := bitsToBytes_toBits bytes
    ((lsbBits data 0).drop (toBits bytes).length) hbytes
  have hdatalen : (embedCore data (toBits bytes) 0).length = data.length :=
    embedCore_length data (toBits bytes) 0
  have hbyteslen : bytes.length ≤ 3 * data.length / 4 / 8 := by
    rw [Nat.le_div_iff_mul_le (by norm_num)]
    exact hcap
  refine ⟨(bitsToBytes ((lsbBits data 0).drop (toBits bytes).length)).take
    (3 * data.length / 4 / 8 - bytes.length), ?_⟩
  unfold extractLsbBytes
  simp only [hdatalen]
  rw [hstream, hreassemble, List.take_append_eq_append_take,
    List.take_of_length_le (by omega)]

/-! ### Locating and parsing a well-formed frame -/

/-- The frame shape: magic, length, checksum, body, end marker. -/
def mkFrame (c : List Nat) (K : Nat) : List Nat :=
  LSB_MAGIC ++ be32 c.length ++ be32 K ++ c ++ LSB_END_MARKER

theorem framePayload_mkFrame (deflate : List Nat → List Nat) (p : ChainedPayload) :
    framePayload deflate p
      = mkFrame (deflate (frameCompressInput p))
          (checksum32 (deflate (frameCompressInput p))) := rfl

theorem readI32_be32 {n : Nat} (hn : n < 2147483648) :
    readI32 (u32 n / 16777216 % 256) (u32 n / 65536 % 256) (u32 n / 256 % 256)
      (u32 n % 256) = (n : Int) := by
  simp only [readI32, u32]
  rw [Nat.mod_eq_of_lt (show n < 4294967296 by omega)]
  have hsum : n / 16777216 % 256 * 16777216 + n / 65536 % 256 * 65536
      + n / 256 % 256 * 256 + n % 256 = n := by omega
  rw [hsum]
  simp only [toInt32]
  rw [Nat.mod_eq_of_lt (show n < 4294967296 by omega), if_pos hn]
  omega

theorem mkFrame_flat (c tail : List Nat) (K : Nat) :
    mkFrame c K ++ tail
      = 73 :: 67 :: 76 :: 83 :: 66 :: 48 :: 49
        :: u32 c.length / 16777216 % 256 :: u32 c.length / 65536 % 256
        :: u32 c.length / 256 % 256 :: u32 c.length % 256
        :: u32 K / 16777216 % 256 :: u32 K / 65536 % 256 :: u32 K / 256 % 256
        :: u32 K % 256 :: (c ++ (LSB_END_MARKER ++ tail)) := by
  simp [mkFrame, LSB_MAGIC, be32]

theorem mkFrame_length (c : List Nat) (K : Nat) :
    (mkFrame c K).length = 22 + c.length := by
  simp [mkFrame, LSB_MAGIC, be32, LSB_END_MARKER]
  omega

theorem getD_drop : ∀ (l : List Nat) (n m : Nat),
    (l.drop n).getD m 0 = l.getD (n + m) 0
  | _, 0, _ => by simp
  | [], _ + 1, _ => by simp
  | a :: l, n + 1, m => by
    simp only [List.drop_succ_cons]
    rw [getD_drop l n m, show n + 1 + m = n + m + 1 by omega]
    rfl

theorem jsByte_natCast (bytes : List Nat) (n : Nat) :
    jsByte bytes (n : Int)
      = if n < bytes.length then some (bytes.getD n 0) else Option.none := by
  simp [jsByte]

/-- `locateFrame`'s per-position check accepts a well-formed frame at the
start of the buffer and returns exactly the frame. -/
theorem frameAt_mkFrame (c tail : List Nat) (K : Nat)
    (hlen : c.length < 2147483648) :
    frameAt (mkFrame c K ++ tail) 0 = some (mkFrame c K) := by
  have hflat := mkFrame_flat c tail K
  have htake : (mkFrame c K ++ tail).take 7 = LSB_MAGIC := by rw [hflat]; rfl
  have h7 : (mkFrame c K ++ tail).getD 7 0 = u32 c.length / 16777216 % 256 := by
    rw [hflat]; rfl
  have h8 : (mkFrame c K ++ tail).getD 8 0 = u32 c.length / 65536 % 256 := by
    rw [hflat]; rfl
  have h9 : (mkFrame c K ++ tail).getD 9 0 = u32 c.length / 256 % 256 := by
    rw [hflat]; rfl
  have h10 : (mkFrame c K ++ tail).getD 10 0 = u32 c.length % 256 := by
    rw [hflat]; rfl
  have hlenB : (mkFrame c K ++ tail).length = 22 + c.length + tail.length := by
    rw [List.length_append, mkFrame_length]
  have hdrop15 : (mkFrame c K ++ tail).drop 15 = c ++ (LSB_END_MARKER ++ tail) := by
    rw [hflat]; rfl
  have hfoot : ∀ i : Nat, i < 7 →
      jsByte (mkFrame c K ++ tail) ((15 + c.length + i : Nat) : Int)
        = some (LSB_END_MARKER.getD i 0) := by
    intro i hi
    rw [jsByte_natCast, if_pos (by rw [hlenB]; omega)]
    rw [show 15 + c.length + i = 15 + (c.length + i) by omega, ← getD_drop,
      hdrop15, List.getD_append_right _ _ _ _ (by omega),
      show c.length + i - c.length = i by omega,
      List.getD_append _ _ _ _ (by simp [LSB_END_MARKER]; omega)]
  have hXi : ∀ i : Nat,
      ((0 : Nat) : Int) + (22 + (c.length : Int)) - 7 + (i : Int)
        = ((15 + c.length + i : Nat) : Int) := by
    intro i; push_cast; ring
  have hrange : List.range 7 = [0, 1, 2, 3, 4, 5, 6] := rfl
  simp only [frameAt, List.drop_zero]
  rw [if_pos htake]
  simp only [h7, h8, h9, h10, readI32_be32 hlen]
  split
  · rename_i hb
    exfalso
    rw [hlenB] at hb
    push_cast at hb
    omega
  · split
    · split
      · rename_i hle
        exfalso
        omega
      · rw [show ((22 : Int) + (c.length : Int)).toNat = 22 + c.length by omega,
          ← mkFrame_length c K, List.take_left]
    · rename_i hall
      exfalso
      apply hall
      rw [hrange]
      simp only [List.all_cons, List.all_nil, Bool.and_true, Bool.and_eq_true,
        decide_eq_true_eq]
      refine ⟨?_, ?_, ?_, ?_, ?_, ?_, ?_⟩ <;>
        rw [hXi, hfoot _ (by omega)]

/-- `locateFrame` finds a well-formed frame sitting at the start of the
decoded buffer. -/
theorem locateFrame_mkFrame (c tail : List Nat) (K : Nat)
    (hlen : c.length < 2147483648) :
    locateFrame (mkFrame c K ++ tail) = some (mkFrame c K) := by
  have hlenB : (mkFrame c K ++ tail).length = 22 + c.length + tail.length := by
    rw [List.length_append, mkFrame_length]
  unfold locateFrame
  rw [if_neg (by omega)]
  rw [show (mkFrame c K ++ tail).length - 22 + 1 = c.length + tail.length + 1 by omega]
  simp [locateFrom, frameAt_mkFrame c tail K hlen]

/-- `parseFrame` on a well-formed frame whose stored checksum is the
recomputed one: the external INFLATE and `JSON.parse` round-trips are
hypotheses, and the checksum comparison succeeds when the sum fits in a
signed 32-bit read. -/
theorem parseFrame_mkFrame (inflate : List Nat → Option (List Nat))
    (parse : List Nat → Option Json) (c s : List Nat) (j : Json)
    (hlen : c.length < 2147483648) (hck : checksum32 c < 2147483648)
    (hinfl : inflate c = some s) (hparse : parse s = some j) :
    parseFrame inflate parse (mkFrame c (checksum32 c)) = some (j, true) := by
  have hflat := mkFrame_flat c [] (checksum32 c)
  rw [List.append_nil] at hflat
  have h7 : (mkFrame c (checksum32 c)).getD 7 0 = u32 c.length / 16777216 % 256 := by
    rw [hflat]; rfl
  have h8 : (mkFrame c (checksum32 c)).getD 8 0 = u32 c.length / 65536 % 256 := by
    rw [hflat]; rfl
  have h9 : (mkFrame c (checksum32 c)).getD 9 0 = u32 c.length / 256 % 256 := by
    rw [hflat]; rfl
  have h10 : (mkFrame c (checksum32 c)).getD 10 0 = u32 c.length % 256 := by
    rw [hflat]; rfl
  have h11 : (mkFrame c (checksum32 c)).getD 11 0
      = u32 (checksum32 c) / 16777216 % 256 := by rw [hflat]; rfl
  have h12 : (mkFrame c (checksum32 c)).getD 12 0
      = u32 (checksum32 c) / 65536 % 256 := by rw [hflat]; rfl
  have h13 : (mkFrame c (checksum32 c)).getD 13 0
      = u32 (checksum32 c) / 256 % 256 := by rw [hflat]; rfl
  have h14 : (mkFrame c (checksum32 c)).getD 14 0 = u32 (checksum32 c) % 256 := by
    rw [hflat]; rfl
  have hdrop15 : (mkFrame c (checksum32 c)).drop 15 = c ++ LSB_END_MARKER := by
    rw [hflat]; rfl
  have hcompressed :
      (if (c.length : Int) ≤ 0 then []
       else ((mkFrame c (checksum32 c)).drop 15).take (c.length : Int).toNat) = c := by
    by_cases hc : c.length = 0
    · rw [if_pos (by simp [hc])]
      exact (List.length_eq_zero.mp hc).symm
    · rw [if_neg (by omega), hdrop15,
        show ((c.length : Int)).toNat = c.length by omega, List.take_left]
  simp only [parseFrame, h7, h8, h9, h10, h11, h12, h13, h14,
    readI32_be32 hlen, readI32_be32 hck, hcompressed, hinfl, hparse]
  simp

/-! ### `extractInternal` after `embedPayload` -/

theorem mem_withRepetition {b : Nat} {F : List Nat} (h : b ∈ withRepetition F) :
    b ∈ F := by
  simp only [withRepetition, List.mem_flatten, List.mem_map] at h
  obtain ⟨l, ⟨x, hx, rfl⟩, hbl⟩ := h
  simp only [List.mem_cons, List.not_mem_nil, or_false] at hbl
  rcases hbl with rfl | rfl | rfl <;> exact hx

theorem framePayload_bytes_lt (deflate : List Nat → List Nat) (p : ChainedPayload)
    (hbytes : ∀ b ∈ deflate (frameCompressInput p), b < 256) :
    ∀ b ∈ framePayload deflate p, b < 256 := by
  intro b hb
  simp only [framePayload, LSB_MAGIC, LSB_END_MARKER, be32, List.append_assoc,
    List.mem_append, List.mem_cons, List.not_mem_nil, or_false] at hb
  have h256 : ∀ m : Nat, m % 256 < 256 := fun m => Nat.mod_lt _ (by norm_num)
  rcases hb with (rfl | rfl | rfl | rfl | rfl | rfl | rfl) | hb
  · omega
  · omega
  · omega
  · omega
  · omega
  · omega
  · omega
  · rcases hb with (rfl | rfl | rfl | rfl) | hb
    · exact h256 _
    · exact h256 _
    · exact h256 _
    · exact h256 _
    · rcases hb with (rfl | rfl | rfl | rfl) | hb
      · exact h256 _
      · exact h256 _
      · exact h256 _
      · exact h256 _
      · rcases hb with hb | (rfl | rfl | rfl | rfl | rfl | rfl | rfl)
        · exact hbytes b hb
        all_goals omega

/-- The whole pipeline `embedPayload` then `extractInternal`: for a frame
whose compressed body round-trips through the external DEFLATE/INFLATE
and `JSON.parse`, and whose length and checksum fit a signed 32-bit read,
the extracted payload is `JSON.stringify`'s view of `p` — except that a
present DCT reading is merged in as `_dct_metadata` when the payload does
not already carry a truthy one. -/
theorem extractInternal_embedPayload
    (dctEmbed : Canvas → Canvas) (dctExtract : Canvas → Option CriticalMetadata)
    (deflate : List Nat → List Nat) (inflate : List Nat → Option (List Nat))
    (parse : List Nat → Option Json) (p : ChainedPayload) (c c' : Canvas)
    (hembed : embedPayload dctEmbed deflate p c = .ok c')
    (hbytes : ∀ b ∈ deflate (frameCompressInput p), b < 256)
    (hlen : (deflate (frameCompressInput p)).length < 2147483648)
    (hck : checksum32 (deflate (frameCompressInput p)) < 2147483648)
    (hinfl : inflate (deflate (frameCompressInput p)) = some (frameCompressInput p))
    (hparse : parse (frameCompressInput p) = some (payloadToJson p)) :
    (extractInternal dctExtract inflate parse c').payload
      = some (match dctExtract c' with
          | some m =>
            if jsTruthy ((objGet (payloadToJson p) "_dct_metadata").getD .null)
            then payloadToJson p
            else objSet (payloadToJson p) "_dct_metadata"
              (dctMetadataToJson
                { chain_id := m.chain_id, version_count := m.version_count,
                  last_version_hash := m.last_version_hash })
          | Option.none => payloadToJson p) := by
  rw [embedPayload, embedBytesAsLsb_eq] at hembed
  split at hembed
  · simp at hembed
  · rename_i hcap
    have hc' : c' = { dctEmbed c with
        data := embedCore (dctEmbed c).data
          (toBits (withRepetition (framePayload deflate p))) 0 } :=
      (Except.ok.inj hembed).symm
    have hrep256 : ∀ b ∈ withRepetition (framePayload deflate p), b < 256 :=
      fun b hb => framePayload_bytes_lt deflate p hbytes b (mem_withRepetition hb)
    have hcap' : (withRepetition (framePayload deflate p)).length * 8
        ≤ 3 * (dctEmbed c).data.length / 4 := by omega
    obtain ⟨junk, hjunk⟩ := extractLsbBytes_embedCore (dctEmbed c).width
      (dctEmbed c).height (dctEmbed c).data
      (withRepetition (framePayload deflate p)) hrep256 hcap'
    have hread : extractLsbBytes c'
        = withRepetition (framePayload deflate p) ++ junk := by
      rw [hc']; exact hjunk
    have hdec := recoverRepetition_withRepetition (framePayload deflate p) junk
    have hloc : locateFrame (recoverRepetition (extractLsbBytes c')).1
        = some (framePayload deflate p) := by
      rw [hread, hdec, framePayload_mkFrame]
      exact locateFrame_mkFrame _ _ _ hlen
    have hpf : parseFrame inflate parse (framePayload deflate p)
        = some (payloadToJson p, true) := by
      rw [framePayload_mkFrame]
      exact parseFrame_mkFrame inflate parse _ _ _ hlen hck hinfl hparse
    simp only [extractInternal, hloc, hpf]
    simp

/-- A concrete payload, canvas and `JSON.parse` stub exercising the
embed/extract pipeline. The 400×1 RGBA canvas offers exactly the 1200
LSB slots the triple-replicated 50-byte frame needs. -/
def p00 : ChainedPayload := { chain_id := "", history := [] }

def canvas00 : Canvas := { width := 400, height := 1, data := List.replicate 1600 0 }

def canvas00' : Canvas :=
  { width := 400, height := 1,
    data := embedCore (List.replicate 1600 0)
      (toBits (withRepetition (framePayload id p00))) 0 }

def parse00 : List Nat → Option Json := fun s =>
  if s = frameCompressInput p00 then some (payloadToJson p00) else Option.none

/-- A DCT reading present on the extraction side. -/
def m00 : CriticalMetadata :=
  { chain_id := "mc", version_count := 2, last_version_hash := "mh",
    checksum := "ck" }

/-- C1 (corrected): when `embedPayload` succeeds, the frame's compressed
body round-trips through the external DEFLATE/INFLATE and `JSON.parse`,
its length and checksum fit a signed 32-bit read, and the DCT side-channel
reports nothing on the stego image (or the payload already carries a
truthy `_dct_metadata` member), extraction returns a payload canonically
equal to the embedded one. The DCT proviso is necessary: a present DCT
reading is merged into a payload that lacks `_dct_metadata`, breaking
canonical equality. -/
theorem embed_extract_roundtrip
    (dctEmbed : Canvas → Canvas) (dctExtract : Canvas → Option CriticalMetadata)
    (deflate : List Nat → List Nat) (inflate : List Nat → Option (List Nat))
    (parse : List Nat → Option Json) (p : ChainedPayload) (c c' : Canvas)
    (hembed : embedPayload dctEmbed deflate p c = .ok c')
    (hbytes : ∀ b ∈ deflate (frameCompressInput p), b < 256)
    (hlen : (deflate (frameCompressInput p)).length < 2147483648)
    (hck : checksum32 (deflate (frameCompressInput p)) < 2147483648)
    (hinfl : inflate (deflate (frameCompressInput p)) = some (frameCompressInput p))
    (hparse : parse (frameCompressInput p) = some (payloadToJson p))
    (hdct : dctExtract c' = Option.none
      ∨ jsTruthy ((objGet (payloadToJson p) "_dct_metadata").getD .null) = true) :
    ∃ j, (extractInternal dctExtract inflate parse c').payload = some j
      ∧ canonicalize j = canonicalize (payloadToJson p) := by
  refine ⟨payloadToJson p, ?_, rfl⟩
  rw [extractInternal_embedPayload dctEmbed dctExtract deflate inflate parse p c c'
    hembed hbytes hlen hck hinfl hparse]
  rcases hdct with hdct | hdct
  · rw [hdct]
  · cases hdc : dctExtract c' with
    | none => rfl
    | some m => simp [hdct]

set_option maxRecDepth 100000 in
/-- The concrete embedding succeeds, yielding the stego canvas. -/
theorem embed00 : embedPayload id id p00 canvas00 = .ok canvas00' := by
  rw [embedPayload, embedBytesAsLsb_eq, if_neg (by decide)]
  rfl

/-- C1 witness: the concrete pipeline round-trips the payload when the
DCT side reports nothing. -/
theorem embed_extract_roundtrip_witness :
    ∃ j, (extractInternal (fun _ => Option.none) some parse00 canvas00').payload
        = some j
      ∧ canonicalize j = canonicalize (payloadToJson p00) :=
  embed_extract_roundtrip id (fun _ => Option.none) id some parse00 p00 canvas00
    canvas00' embed00 (by decide) (by decide) (by decide) rfl (by simp [parse00])
    (Or.inl rfl)

/-- C1 counterexample: on the same successful embedding, a present DCT
reading makes extraction return the payload enriched with an extra
`_dct_metadata` member, which is not canonically equal to the embedded
payload — refuting the claim as stated. -/
theorem embed_extract_not_spec :
    embedPayload id id p00 canvas00 = .ok canvas00'
    ∧ (extractInternal (fun _ => some m00) some parse00 canvas00').payload
        = some (objSet (payloadToJson p00) "_dct_metadata"
            (dctMetadataToJson
              { chain_id := "mc", version_count := 2,
                last_version_hash := "mh" }))
    ∧ ¬ ∃ j, (extractInternal (fun _ => some m00) some parse00 canvas00').payload
          = some j ∧ canonicalize j = canonicalize (payloadToJson p00) := by
  have henr : (extractInternal (fun _ => some m00) some parse00 canvas00').payload
      = some (objSet (payloadToJson p00) "_dct_metadata"
          (dctMetadataToJson
            { chain_id := "mc", version_count := 2,
              last_version_hash := "mh" })) := by
    rw [extractInternal_embedPayload id (fun _ => some m00) id some parse00
      p00 canvas00 canvas00' embed00 (by decide) (by decide) (by decide) rfl
      (by simp [parse00])]
    rfl
  refine ⟨embed00, henr, ?_⟩
  rintro ⟨j, hj, hcanon⟩
  rw [henr] at hj
  cases Option.some.inj hj
  exact absurd (congrArg stringifyJson hcanon) (by decide)

/-! ## Rotation scan (`extractionService.ts` lines 54–171)

`tryExtractWithRotations`. The float canvas transform of `rotateCanvas`
depends only on the 0–360-normalized angle (it builds the rotation from
`normalizedDegrees`, returning the source unchanged at 0), so it enters
the model as a function of the normalized angle, `Option`-valued for its
`throw` path; `extractPayloadWithDetails` and the `tryExtractDCT`
fallback are likewise parameters. Loading the source image
(`renderCanvasFromImage`, which may throw) is an `Option Canvas`. The
human-readable `error` strings of the result are not modelled. -/

/-- JavaScript `((d % 360) + 360) % 360` (`%` truncates toward zero). -/
def normJs (d : Int) : Int := (d.tmod 360 + 360).tmod 360

/-- The comparator passed to `Array.prototype.sort` over rotation
angles. -/
def jsCmpRot (a b : Int) : Int :=
  if normJs a = 0 then -1 else if normJs b = 0 then 1 else normJs a - normJs b

/-- Stable insertion of `x` after every element not strictly greater:
the behaviour of JavaScript's (stable) `Array.prototype.sort` on this
comparator. -/
def insertStable (x : Int) : List Int → List Int
  | [] => [x]
  | y :: ys => if jsCmpRot x y < 0 then x :: y :: ys else y :: insertStable x ys

def jsSortRot (l : List Int) : List Int :=
  l.foldl (fun acc x => insertStable x acc) []

def DEFAULT_ROTATIONS : List Int := [0, 90, 180, 270, -90, -180, -270]

/-- The result record of `tryExtractWithRotations` (error strings not
modelled). -/
structure RotResult where
  success : Bool
  payload : Option Json
  rotation : Option Int
  criticalMetadata : Option CriticalMetadata
deriving Inhabited

/-- The loop state: `lastCriticalMetadata` and `metadataRotation`. -/
structure RotState where
  lastCM : Option CriticalMetadata
  metaRot : Option Int
deriving Inhabited

/-- One iteration of the rotation loop: `.error` is the early
full-payload return, `.ok` the updated state. -/
def rotStep (extract : Canvas → ExtractionResult)
    (dctTry : Canvas → Option CriticalMetadata) (base : Canvas)
    (rotate : Int → Option Canvas) (st : RotState) (rotation : Int) :
    Except RotResult RotState :=
  match (if normJs rotation = 0 then some base else rotate (normJs rotation)) with
  | Option.none => .ok st
  | some candidate =>
    let details := extract candidate
    if details.payload.isSome then
      .error { success := true, payload := details.payload,
               rotation := some (if normJs rotation = 0 then 0 else rotation),
               criticalMetadata := details.criticalMetadata }
    else
      match (details.criticalMetadata).orElse (fun _ => dctTry candidate) with
      | some cm =>
        .ok { lastCM := some cm,
              metaRot := st.metaRot.orElse
                (fun _ => some (if normJs rotation = 0 then 0 else rotation)) }
      | Option.none => .ok st

/-- The rotation loop; after the last iteration the two final returns
coincide up to error strings. -/
def rotLoop (extract : Canvas → ExtractionResult)
    (dctTry : Canvas → Option CriticalMetadata) (base : Canvas)
    (rotate : Int → Option Canvas) : RotState → List Int → RotResult
  | st, [] =>
    { success := false, payload := Option.none, rotation := st.metaRot,
      criticalMetadata := st.lastCM }
  | st, r :: rs =>
    match rotStep extract dctTry base rotate st r with
    | .error res => res
    | .ok st' => rotLoop extract dctTry base rotate st' rs

/-- `tryExtractWithRotations` at the default rotation list. -/
def tryExtractWithRotations (load : Option Canvas)
    (extract : Canvas → ExtractionResult)
    (dctTry : Canvas → Option CriticalMetadata)
    (rotate : Int → Option Canvas) : RotResult :=
  match load with
  | Option.none =>
    { success := false, payload := Option.none, rotation := Option.none,
      criticalMetadata := Option.none }
  | some base =>
    rotLoop extract dctTry base rotate { lastCM := Option.none, metaRot := Option.none }
      (jsSortRot DEFAULT_ROTATIONS)

theorem rotLoop_cons_ok (extract : Canvas → ExtractionResult)
    (dctTry : Canvas → Option CriticalMetadata) (base : Canvas)
    (rotate : Int → Option Canvas) (st : RotState) (r : Int) (rs : List Int)
    (st' : RotState)
    (h : rotStep extract dctTry base rotate st r = .ok st') :
    rotLoop extract dctTry base rotate st (r :: rs)
      = rotLoop extract dctTry base rotate st' rs := by
  simp [rotLoop, h]

/-- Once metadata is recorded, further payload-free iterations keep the
result a metadata-only one at the recorded rotation. -/
theorem rotLoop_preserve (extract : Canvas → ExtractionResult)
    (dctTry : Canvas → Option CriticalMetadata) (base : Canvas)
    (rotate : Int → Option Canvas) : ∀ (rs : List Int) (st : RotState) (v : Int),
    (∀ r ∈ rs, ∀ cv,
      (if normJs r = 0 then some base else rotate (normJs r)) = some cv →
      (extract cv).payload = Option.none) →
    st.lastCM.isSome → st.metaRot = some v →
    (rotLoop extract dctTry base rotate st rs).success = false
    ∧ (rotLoop extract dctTry base rotate st rs).payload = Option.none
    ∧ (rotLoop extract dctTry base rotate st rs).rotation = some v
    ∧ (rotLoop extract dctTry base rotate st rs).criticalMetadata.isSome
  | [], st, v, _, hcm, hmr => by simp [rotLoop, hmr, hcm]
  | r :: rs, st, v, hnp, hcm, hmr => by
    simp only [rotLoop, rotStep]
    cases hcand : (if normJs r = 0 then some base else rotate (normJs r)) with
    | none =>
      exact rotLoop_preserve extract dctTry base rotate rs st v
        (fun x hx => hnp x (by simp [hx])) hcm hmr
    | some cv =>
      have hp : (extract cv).payload = Option.none := hnp r (by simp) cv hcand
      simp only [hp, Option.isSome_none, Bool.false_eq_true, if_false]
      cases hm : ((extract cv).criticalMetadata).orElse (fun _ => dctTry cv) with
      | none =>
        exact rotLoop_preserve extract dctTry base rotate rs st v
          (fun x hx => hnp x (by simp [hx])) hcm hmr
      | some cm =>
        exact rotLoop_preserve extract dctTry base rotate rs
          { lastCM := some cm,
            metaRot := st.metaRot.orElse
              (fun _ => some (if normJs r = 0 then 0 else r)) } v
          (fun x hx => hnp x (by simp [hx])) (by simp)
          (by simp [Option.orElse, hmr])

/-- With no payload and no metadata at any remaining rotation, the loop
leaves the state unchanged and reports nothing. -/
theorem rotLoop_nothing (extract : Canvas → ExtractionResult)
    (dctTry : Canvas → Option CriticalMetadata) (base : Canvas)
    (rotate : Int → Option Canvas) : ∀ (rs : List Int) (st : RotState),
    (∀ r ∈ rs, ∀ cv,
      (if normJs r = 0 then some base else rotate (normJs r)) = some cv →
      (extract cv).payload = Option.none
        ∧ ((extract cv).criticalMetadata).orElse (fun _ => dctTry cv)
            = Option.none) →
    rotLoop extract dctTry base rotate st rs
      = { success := false, payload := Option.none, rotation := st.metaRot,
          criticalMetadata := st.lastCM }
  | [], st, _ => by simp [rotLoop]
  | r :: rs, st, h => by
    simp only [rotLoop, rotStep]
    cases hcand : (if normJs r = 0 then some base else rotate (normJs r)) with
    | none =>
      exact rotLoop_nothing extract dctTry base rotate rs st
        (fun x hx => h x (by simp [hx]))
    | some cv =>
      obtain ⟨hp, hm⟩ := h r (by simp) cv hcand
      simp only [hp, hm, Option.isSome_none, Bool.false_eq_true, if_false]
      exact rotLoop_nothing extract dctTry base rotate rs st
        (fun x hx => h x (by simp [hx]))

/-- C8: the scan tries the seven default angles is ascending normalized
order with 0 first (normalized sequence 0,90,90,180,180,270,270, i.e.
the distinct angles 0, 90, 180, 270 in order, negative equivalents
collapsing); a failed image load returns a graceful nothing-result; when
rotations succeed, the result is full-payload success at the first of
0, 90, 180, 270 whose candidate yields a payload, reporting that
rotation; with no payload anywhere but metadata somewhere, a
metadata-only result at the earliest metadata-bearing rotation; and
otherwise the empty result. -/
theorem rotation_order_spec (extract : Canvas → ExtractionResult)
    (dctTry : Canvas → Option CriticalMetadata) (rcanvas : Int → Canvas) :
    (jsSortRot DEFAULT_ROTATIONS).map normJs = [0, 90, 90, 180, 180, 270, 270]
    ∧ tryExtractWithRotations Option.none extract dctTry (fun n => some (rcanvas n))
        = { success := false, payload := Option.none, rotation := Option.none,
            criticalMetadata := Option.none }
    ∧ (match ([0, 90, 180, 270] : List Int).find?
          (fun r => (extract (rcanvas r)).payload.isSome) with
       | some r =>
         (tryExtractWithRotations (some (rcanvas 0)) extract dctTry
             (fun n => some (rcanvas n))).success = true
         ∧ (tryExtractWithRotations (some (rcanvas 0)) extract dctTry
             (fun n => some (rcanvas n))).payload = (extract (rcanvas r)).payload
         ∧ (tryExtractWithRotations (some (rcanvas 0)) extract dctTry
             (fun n => some (rcanvas n))).rotation = some r
       | Option.none =>
         (tryExtractWithRotations (some (rcanvas 0)) extract dctTry
             (fun n => some (rcanvas n))).success = false
         ∧ (tryExtractWithRotations (some (rcanvas 0)) extract dctTry
             (fun n => some (rcanvas n))).payload = Option.none
         ∧ match ([0, 90, 180, 270] : List Int).find? (fun r =>
               (((extract (rcanvas r)).criticalMetadata).orElse
                 (fun _ => dctTry (rcanvas r))).isSome) with
           | some r =>
             (tryExtractWithRotations (some (rcanvas 0)) extract dctTry
                 (fun n => some (rcanvas n))).rotation = some r
             ∧ (tryExtractWithRotations (some (rcanvas 0)) extract dctTry
                 (fun n => some (rcanvas n))).criticalMetadata.isSome
           | Option.none =>
             tryExtractWithRotations (some (rcanvas 0)) extract dctTry
                 (fun n => some (rcanvas n))
               = { success := false, payload := Option.none,
                   rotation := Option.none, criticalMetadata := Option.none }) := by
  have hsort : jsSortRot DEFAULT_ROTATIONS = [0, 90, -270, 180, -180, 270, -90] := by
    decide
  have hn0 : normJs 0 = 0 := by decide
  have hn90 : normJs 90 = 90 := by decide
  have hnm270 : normJs (-270) = 90 := by decide
  have hn180 : normJs 180 = 180 := by decide
  have hnm180 : normJs (-180) = 180 := by decide
  have hn270 : normJs 270 = 270 := by decide
  have hnm90 : normJs (-90) = 270 := by decide
  refine ⟨by decide, rfl, ?_⟩
  simp only [tryExtractWithRotations, hsort]
  cases hp0 : (extract (rcanvas 0)).payload with
  | some j0 =>
    simp [rotLoop, rotStep, List.find?, hp0, hn0]
  | none =>
    cases hp90 : (extract (rcanvas 90)).payload with
    | some j90 =>
      rcases hm0 : ((extract (rcanvas 0)).criticalMetadata).orElse
          (fun _ => dctTry (rcanvas 0)) with _ | cm0 <;>
        simp [rotLoop, rotStep, List.find?, hp0, hp90, hm0, hn0, hn90]
    | none =>
      cases hp180 : (extract (rcanvas 180)).payload with
      | some j180 =>
        rcases hm0 : ((extract (rcanvas 0)).criticalMetadata).orElse
            (fun _ => dctTry (rcanvas 0)) with _ | cm0 <;>
          rcases hm90 : ((extract (rcanvas 90)).criticalMetadata).orElse
              (fun _ => dctTry (rcanvas 90)) with _ | cm90 <;>
            simp [rotLoop, rotStep, List.find?, hp0, hp90, hp180, hm0, hm90,
              hn0, hn90, hnm270, hn180]
      | none =>
        cases hp270 : (extract (rcanvas 270)).payload with
        | some j270 =>
          rcases hm0 : ((extract (rcanvas 0)).criticalMetadata).orElse
              (fun _ => dctTry (rcanvas 0)) with _ | cm0 <;>
            rcases hm90 : ((extract (rcanvas 90)).criticalMetadata).orElse
                (fun _ => dctTry (rcanvas 90)) with _ | cm90 <;>
              rcases hm180 : ((extract (rcanvas 180)).criticalMetadata).orElse
                  (fun _ => dctTry (rcanvas 180)) with _ | cm180 <;>
                simp [rotLoop, rotStep, List.find?, hp0, hp90, hp180, hp270,
                  hm0, hm90, hm180, hn0, hn90, hnm270, hn180, hnm180, hn270]
        | none =>
          have hfindp : ([0, 90, 180, 270] : List Int).find?
              (fun r => (extract (rcanvas r)).payload.isSome) = Option.none := by
            simp [List.find?, hp0, hp90, hp180, hp270]
          rw [hfindp]
          cases hm0 : ((extract (rcanvas 0)).criticalMetadata).orElse
              (fun _ => dctTry (rcanvas 0)) with
          | some cm0 =>
            have hstep0 : rotStep extract dctTry (rcanvas 0)
                (fun n => some (rcanvas n))
                { lastCM := Option.none, metaRot := Option.none } 0
                = .ok { lastCM := some cm0, metaRot := some 0 } := by
              simp [rotStep, hn0, hp0, hm0]
            have hpre := rotLoop_preserve extract dctTry (rcanvas 0)
              (fun n => some (rcanvas n)) [90, -270, 180, -180, 270, -90]
              { lastCM := some cm0, metaRot := some 0 } 0
              (by
                intro r hr cv hcv
                simp only [List.mem_cons, List.not_mem_nil, or_false] at hr
                rcases hr with rfl | rfl | rfl | rfl | rfl | rfl <;>
                  simp only [hn90, hnm270, hn180, hnm180, hn270, hnm90] at hcv <;>
                  simp at hcv <;> subst hcv <;> assumption)
              (by simp) rfl
            have hfindm : ([0, 90, 180, 270] : List Int).find? (fun r =>
                (((extract (rcanvas r)).criticalMetadata).orElse
                  (fun _ => dctTry (rcanvas r))).isSome) = some 0 := by
              simp [List.find?, hm0]
            rw [hfindm, rotLoop_cons_ok _ _ _ _ _ _ _ _ hstep0]
            exact ⟨hpre.1, hpre.2.1, hpre.2.2.1, hpre.2.2.2⟩
          | none =>
            have hstep0 : rotStep extract dctTry (rcanvas 0)
                (fun n => some (rcanvas n))
                { lastCM := Option.none, metaRot := Option.none } 0
                = .ok { lastCM := Option.none, metaRot := Option.none } := by
              simp [rotStep, hn0, hp0, hm0]
            cases hm90 : ((extract (rcanvas 90)).criticalMetadata).orElse
                (fun _ => dctTry (rcanvas 90)) with
            | some cm90 =>
              have hstep90 : rotStep extract dctTry (rcanvas 0)
                  (fun n => some (rcanvas n))
                  { lastCM := Option.none, metaRot := Option.none } 90
                  = .ok { lastCM := some cm90, metaRot := some 90 } := by
                simp [rotStep, hn90, hp90, hm90]
              have hpre := rotLoop_preserve extract dctTry (rcanvas 0)
                (fun n => some (rcanvas n)) [-270, 180, -180, 270, -90]
                { lastCM := some cm90, metaRot := some 90 } 90
                (by
                  intro r hr cv hcv
                  simp only [List.mem_cons, List.not_mem_nil, or_false] at hr
                  rcases hr with rfl | rfl | rfl | rfl | rfl <;>
                    simp only [hnm270, hn180, hnm180, hn270, hnm90] at hcv <;>
                    simp at hcv <;> subst hcv <;> assumption)
                (by simp) rfl
              have hfindm : ([0, 90, 180, 270] : List Int).find? (fun r =>
                  (((extract (rcanvas r)).criticalMetadata).orElse
                    (fun _ => dctTry (rcanvas r))).isSome) = some 90 := by
                simp [List.find?, hm0, hm90]
              rw [hfindm, rotLoop_cons_ok _ _ _ _ _ _ _ _ hstep0,
                rotLoop_cons_ok _ _ _ _ _ _ _ _ hstep90]
              exact ⟨hpre.1, hpre.2.1, hpre.2.2.1, hpre.2.2.2⟩
            | none =>
              have hstep90 : rotStep extract dctTry (rcanvas 0)
                  (fun n => some (rcanvas n))
                  { lastCM := Option.none, metaRot := Option.none } 90
                  = .ok { lastCM := Option.none, metaRot := Option.none } := by
                simp [rotStep, hn90, hp90, hm90]
              have hstepm270 : rotStep extract dctTry (rcanvas 0)
                  (fun n => some (rcanvas n))
                  { lastCM := Option.none, metaRot := Option.none } (-270)
                  = .ok { lastCM := Option.none, metaRot := Option.none } := by
                simp [rotStep, hnm270, hp90, hm90]
              cases hm180 : ((extract (rcanvas 180)).criticalMetadata).orElse
                  (fun _ => dctTry (rcanvas 180)) with
              | some cm180 =>
                have hstep180 : rotStep extract dctTry (rcanvas 0)
                    (fun n => some (rcanvas n))
                    { lastCM := Option.none, metaRot := Option.none } 180
                    = .ok { lastCM := some cm180, metaRot := some 180 } := by
                  simp [rotStep, hn180, hp180, hm180]
                have hpre := rotLoop_preserve extract dctTry (rcanvas 0)
                  (fun n => some (rcanvas n)) [-180, 270, -90]
                  { lastCM := some cm180, metaRot := some 180 } 180
                  (by
                    intro r hr cv hcv
                    simp only [List.mem_cons, List.not_mem_nil, or_false] at hr
                    rcases hr with rfl | rfl | rfl <;>
                      simp only [hnm180, hn270, hnm90] at hcv <;>
                      simp at hcv <;> subst hcv <;> assumption)
                  (by simp) rfl
                have hfindm : ([0, 90, 180, 270] : List Int).find? (fun r =>
                    (((extract (rcanvas r)).criticalMetadata).orElse
                      (fun _ => dctTry (rcanvas r))).isSome) = some 180 := by
                  simp [List.find?, hm0, hm90, hm180]
                rw [hfindm, rotLoop_cons_ok _ _ _ _ _ _ _ _ hstep0,
                  rotLoop_cons_ok _ _ _ _ _ _ _ _ hstep90,
                  rotLoop_cons_ok _ _ _ _ _ _ _ _ hstepm270,
                  rotLoop_cons_ok _ _ _ _ _ _ _ _ hstep180]
                exact ⟨hpre.1, hpre.2.1, hpre.2.2.1, hpre.2.2.2⟩
              | none =>
                have hstep180 : rotStep extract dctTry (rcanvas 0)
                    (fun n => some (rcanvas n))
                    { lastCM := Option.none, metaRot := Option.none } 180
                    = .ok { lastCM := Option.none, metaRot := Option.none } := by
                  simp [rotStep, hn180, hp180, hm180]
                have hstepm180 : rotStep extract dctTry (rcanvas 0)
                    (fun n => some (rcanvas n))
                    { lastCM := Option.none, metaRot := Option.none } (-180)
                    = .ok { lastCM := Option.none, metaRot := Option.none } := by
                  simp [rotStep, hnm180, hp180, hm180]
                cases hm270 : ((extract (rcanvas 270)).criticalMetadata).orElse
                    (fun _ => dctTry (rcanvas 270)) with
                | some cm270 =>
                  have hstep270 : rotStep extract dctTry (rcanvas 0)
                      (fun n => some (rcanvas n))
                      { lastCM := Option.none, metaRot := Option.none } 270
                      = .ok { lastCM := some cm270, metaRot := some 270 } := by
                    simp [rotStep, hn270, hp270, hm270]
                  have hpre := rotLoop_preserve extract dctTry (rcanvas 0)
                    (fun n => some (rcanvas n)) [-90]
                    { lastCM := some cm270, metaRot := some 270 } 270
                    (by
                      intro r hr cv hcv
                      simp only [List.mem_cons, List.not_mem_nil, or_false] at hr
                      rcases hr with rfl
                      simp only [hnm90] at hcv
                      simp at hcv
                      subst hcv
                      assumption)
                    (by simp) rfl
                  have hfindm : ([0, 90, 180, 270] : List Int).find? (fun r =>
                      (((extract (rcanvas r)).criticalMetadata).orElse
                        (fun _ => dctTry (rcanvas r))).isSome) = some 270 := by
                    simp [List.find?, hm0, hm90, hm180, hm270]
                  rw [hfindm, rotLoop_cons_ok _ _ _ _ _ _ _ _ hstep0,
                    rotLoop_cons_ok _ _ _ _ _ _ _ _ hstep90,
                    rotLoop_cons_ok _ _ _ _ _ _ _ _ hstepm270,
                    rotLoop_cons_ok _ _ _ _ _ _ _ _ hstep180,
                    rotLoop_cons_ok _ _ _ _ _ _ _ _ hstepm180,
                    rotLoop_cons_ok _ _ _ _ _ _ _ _ hstep270]
                  exact ⟨hpre.1, hpre.2.1, hpre.2.2.1, hpre.2.2.2⟩
                | none =>
                  have hnoth := rotLoop_nothing extract dctTry (rcanvas 0)
                    (fun n => some (rcanvas n))
                    [0, 90, -270, 180, -180, 270, -90]
                    { lastCM := Option.none, metaRot := Option.none }
                    (by
                      intro r hr cv hcv
                      simp only [List.mem_cons, List.not_mem_nil, or_false] at hr
                      rcases hr with rfl | rfl | rfl | rfl | rfl | rfl | rfl <;>
                        simp only [hn0, hn90, hnm270, hn180, hnm180, hn270,
                          hnm90] at hcv <;>
                        simp at hcv <;> subst hcv <;>
                        exact ⟨by assumption, by assumption⟩)
                  have hfindm : ([0, 90, 180, 270] : List Int).find? (fun r =>
                      (((extract (rcanvas r)).criticalMetadata).orElse
                        (fun _ => dctTry (rcanvas r))).isSome) = Option.none := by
                    simp [List.find?, hm0, hm90, hm180, hm270]
                  rw [hfindm, hnoth]
                  exact ⟨rfl, rfl, rfl⟩

end ImageChain
